import Mathlib

/-!
Shallow embedding, in Lean 4, of the core of the SimPEG repository under
verification: the cylindrically-symmetric 1D mesh (`SimPEG/mesh/Cyl1DMesh.py`)
and the natural-source EM receiver / derivative engine
(`SimPEG/EM/NSEM/RxNSEM.py`).

Modelling conventions:
* numpy complex values are modelled by `Cq`, pairs of rationals with the
  complex ring structure (exact arithmetic in place of floating point);
* numpy 1D arrays are modelled by `List ℚ` at the construction boundary and
  by functions out of `Fin n` (or products/sums of such) once shapes are
  fixed; sparse matrices by `Matrix`;
* the constants `pi` (scipy.constants.pi) and `mu_0` are carried as explicit
  positive rational parameters, since every property at stake holds for any
  positive value of these constants;
* Python runtime failures (assertion errors, ValueError, UnboundLocalError)
  are modelled by `Except String`.
-/

/-- Complex numbers with rational real and imaginary parts; the scalar type
used to model numpy complex arithmetic exactly. -/
structure Cq where
  re : ℚ
  im : ℚ
deriving DecidableEq, Repr

@[ext] theorem Cq.ext {a b : Cq} (h1 : a.re = b.re) (h2 : a.im = b.im) : a = b := by
  cases a; cases b; simp_all

instance : Zero Cq := ⟨⟨0, 0⟩⟩

instance : One Cq := ⟨⟨1, 0⟩⟩

instance : Add Cq := ⟨fun a b => ⟨a.re + b.re, a.im + b.im⟩⟩

instance : Neg Cq := ⟨fun a => ⟨-a.re, -a.im⟩⟩

instance : Mul Cq := ⟨fun a b => ⟨a.re * b.re - a.im * b.im, a.re * b.im + a.im * b.re⟩⟩

@[simp] theorem Cq.zero_re : (0 : Cq).re = 0 := rfl

@[simp] theorem Cq.zero_im : (0 : Cq).im = 0 := rfl

@[simp] theorem Cq.one_re : (1 : Cq).re = 1 := rfl

@[simp] theorem Cq.one_im : (1 : Cq).im = 0 := rfl

@[simp] theorem Cq.mk_zero_zero : (⟨0, 0⟩ : Cq) = 0 := rfl

@[simp] theorem Cq.mk_one_zero : (⟨1, 0⟩ : Cq) = 1 := rfl

@[simp] theorem Cq.add_re (a b : Cq) : (a + b).re = a.re + b.re := rfl

@[simp] theorem Cq.add_im (a b : Cq) : (a + b).im = a.im + b.im := rfl

@[simp] theorem Cq.neg_re (a : Cq) : (-a).re = -a.re := rfl

@[simp] theorem Cq.neg_im (a : Cq) : (-a).im = -a.im := rfl

@[simp] theorem Cq.mul_re (a b : Cq) : (a * b).re = a.re * b.re - a.im * b.im := rfl

@[simp] theorem Cq.mul_im (a b : Cq) : (a * b).im = a.re * b.im + a.im * b.re := rfl

instance : CommRing Cq where
  add_assoc a b c := by ext <;> simp <;> ring
  zero_add a := by ext <;> simp
  add_zero a := by ext <;> simp
  add_comm a b := by ext <;> simp <;> ring
  neg_add_cancel a := by ext <;> simp
  mul_assoc a b c := by ext <;> simp <;> ring
  one_mul a := by ext <;> simp
  mul_one a := by ext <;> simp
  left_distrib a b c := by ext <;> simp <;> ring
  right_distrib a b c := by ext <;> simp <;> ring
  zero_mul a := by ext <;> simp
  mul_zero a := by ext <;> simp
  mul_comm a b := by ext <;> simp <;> ring
  nsmul := nsmulRec
  zsmul := zsmulRec

/-- The imaginary unit, modelling numpy's `1j`. -/
def Cq.I : Cq := ⟨0, 1⟩

/-- Embedding of a rational (a numpy real scalar) as a complex value. -/
def Cq.ofQ (q : ℚ) : Cq := ⟨q, 0⟩

/-- Complex reciprocal, modelling `1. / z` on numpy complex values
(total: sends 0 to 0, where numpy would produce inf/nan). -/
def Cq.inv (a : Cq) : Cq :=
  ⟨a.re / (a.re ^ 2 + a.im ^ 2), -a.im / (a.re ^ 2 + a.im ^ 2)⟩

instance : Inv Cq := ⟨Cq.inv⟩

/-- Division of a complex value by a real scalar, modelling `z / mu_0`. -/
def Cq.divQ (a : Cq) (q : ℚ) : Cq := ⟨a.re / q, a.im / q⟩

/-! ## Cyl1DMesh (SimPEG/mesh/Cyl1DMesh.py) -/

/-- Mesh state after a successful `Cyl1DMesh.__init__`: the two width arrays
`hr = h[0]`, `hz = h[1]` and the vertical origin `z0`. -/
structure Cyl1DMesh where
  hr : List ℚ
  hz : List ℚ
  z0 : ℚ
deriving DecidableEq, Repr

/-- Model of `Cyl1DMesh.__init__(h, z0)`: `h` must hold exactly two 1D arrays
(the element arrays are already 1D numeric by typing); a supplied `z0` is a
numpy value whose `size` must be 1; an omitted `z0` defaults to 0.  Failed
asserts are modelled as `Except.error`. -/
def Cyl1DMesh.init (h : List (List ℚ)) (z0 : Option (List ℚ)) : Except String Cyl1DMesh :=
  match h with
  | [hr, hz] =>
    match z0 with
    | none => .ok ⟨hr, hz, 0⟩
    | some z =>
      match z with
      | [z0v] => .ok ⟨hr, hz, z0v⟩
      | _ => .error "z0.size must equal 1"
  | _ => .error "len(h) must equal 2"

namespace Cyl1DMesh

/-- Number of cells in the radial direction: `hr.size`. -/
def nCr (m : Cyl1DMesh) : ℕ := m.hr.length

/-- Number of cells in the z direction: `hz.size`. -/
def nCz (m : Cyl1DMesh) : ℕ := m.hz.length

/-- Total number of cells: `nCr * nCz`. -/
def nC (m : Cyl1DMesh) : ℕ := m.nCr * m.nCz

/-- Number of nodes in the radial direction: `hr.size` (not `hr.size + 1`). -/
def nNr (m : Cyl1DMesh) : ℕ := m.hr.length

/-- Number of nodes in the z direction: `hz.size + 1`. -/
def nNz (m : Cyl1DMesh) : ℕ := m.hz.length + 1

/-- Total number of nodes: `nNr * nNz`. -/
def nN (m : Cyl1DMesh) : ℕ := m.nNr * m.nNz

/-- Number of r faces: `nNr * nCz`. -/
def nFr (m : Cyl1DMesh) : ℕ := m.nNr * m.nCz

/-- Number of z faces: `nNz * nCr`. -/
def nFz (m : Cyl1DMesh) : ℕ := m.nNz * m.nCr

/-- Total number of faces: `nFr + nFz`. -/
def nF (m : Cyl1DMesh) : ℕ := m.nFr + m.nFz

/-- Number of edges: equal to the number of nodes. -/
def nE (m : Cyl1DMesh) : ℕ := m.nN

/-- Nodal grid vector in r: `hr.cumsum()`; entry `j` is the sum of the first
`j+1` radial widths (no leading 0, so no node sits on the symmetry axis). -/
def vectorNr (m : Cyl1DMesh) (j : Fin m.nCr) : ℚ :=
  ∑ i in Finset.range (j.val + 1), m.hr.getD i 0

/-- Nodal grid vector in z: `np.r_[0, hz.cumsum()] + z0`. -/
def vectorNz (m : Cyl1DMesh) (i : Fin m.nNz) : ℚ :=
  (∑ k in Finset.range i.val, m.hz.getD k 0) + m.z0

/-- Cell-centered grid vector in r:
`np.r_[0, hr.cumsum()[1:] - hr[1:]/2]` — the first entry is exactly 0. -/
def vectorCCr (m : Cyl1DMesh) (j : Fin m.nCr) : ℚ :=
  if j.val = 0 then 0
  else (∑ i in Finset.range (j.val + 1), m.hr.getD i 0) - m.hr.getD j.val 0 / 2

/-- Cell-centered grid vector in z: `hz.cumsum() - hz/2 + z0`. -/
def vectorCCz (m : Cyl1DMesh) (k : Fin m.nCz) : ℚ :=
  (∑ i in Finset.range (k.val + 1), m.hz.getD i 0) - m.hz.getD k.val 0 / 2 + m.z0

/-- Shifted node radii `np.r_[0, vectorNr[:-1]]`: the inner radius of radial
cell `j` (0 for the innermost cell). -/
def innerNr (m : Cyl1DMesh) (j : Fin m.nCr) : ℚ :=
  ∑ i in Finset.range j.val, m.hr.getD i 0

/-- Annulus cross-section areas `az = pi*(vectorNr**2 - np.r_[0,vectorNr[:-1]]**2)`
used in both `area` and `vol`. -/
def annulusAz (pi : ℚ) (m : Cyl1DMesh) (j : Fin m.nCr) : ℚ :=
  pi * ((m.vectorNr j) ^ 2 - (m.innerNr j) ^ 2)

/-- Radial-face areas `areaR = np.kron(hz, 2*pi*vectorNr)`, indexed by
(z-cell, r-node); the product index mirrors numpy's flattened kron layout. -/
def areaR (pi : ℚ) (m : Cyl1DMesh) (kj : Fin m.nCz × Fin m.nCr) : ℚ :=
  m.hz.getD kj.1.val 0 * (2 * pi * m.vectorNr kj.2)

/-- Vertical-face areas `areaZ = np.kron(ones(nNz), pi*(vectorNr**2 - r_[0,vectorNr[:-1]]**2))`,
indexed by (z-node, r-cell). -/
def areaZ (pi : ℚ) (m : Cyl1DMesh) (kj : Fin m.nNz × Fin m.nCr) : ℚ :=
  annulusAz pi m kj.2

/-- Face areas `area = np.r_[areaR, areaZ]` (stacked, as a sum-indexed vector). -/
def area (pi : ℚ) (m : Cyl1DMesh) :
    (Fin m.nCz × Fin m.nCr) ⊕ (Fin m.nNz × Fin m.nCr) → ℚ :=
  Sum.elim (areaR pi m) (areaZ pi m)

/-- Cell volumes `vol = np.kron(hz, az)`, indexed by (z-cell, r-cell). -/
def vol (pi : ℚ) (m : Cyl1DMesh) (kj : Fin m.nCz × Fin m.nCr) : ℚ :=
  m.hz.getD kj.1.val 0 * annulusAz pi m kj.2

/-- Radial averaging stencil: `ar = sp.spdiags(0.5*ones((2, nCr)), [0, 1], nCr, nCr)`
followed by the boundary fix-up `ar[0, 0] = 1` (the innermost radial cell
borders the symmetry axis, not another cell). -/
def arAvg (n : ℕ) : Matrix (Fin n) (Fin n) ℚ :=
  Matrix.of fun i j =>
    if i.val = 0 ∧ j.val = 0 then 1
    else if j.val = i.val ∨ j.val = i.val + 1 then 1/2 else 0

/-- Vertical averaging stencil:
`az = sp.spdiags(0.5*ones((2, nNz)), [-1, 0], nNz, nCz)` with `nNz = nCz + 1`. -/
def azAvg (n : ℕ) : Matrix (Fin (n + 1)) (Fin n) ℚ :=
  Matrix.of fun i j => if i.val = j.val ∨ i.val = j.val + 1 then 1/2 else 0

/-- Averaging operator from cell edges to cell centres:
`aveE2CC = sp.kron(az, ar).T`.  Rows are cells (z-cell, r-cell); columns are
edges, i.e. nodes (z-node, r-node). -/
def aveE2CC (m : Cyl1DMesh) :
    Matrix (Fin m.nCz × Fin m.nCr) (Fin (m.nCz + 1) × Fin m.nCr) ℚ :=
  (Matrix.kroneckerMap (· * ·) (azAvg m.nCz) (arAvg m.nCr)).transpose

/-- The r-face block of the face averaging operator: `Afr = sp.kron(sp.eye(nCz), ar)`. -/
def avgAfr (m : Cyl1DMesh) :
    Matrix (Fin m.nCz × Fin m.nCr) (Fin m.nCz × Fin m.nCr) ℚ :=
  Matrix.kroneckerMap (· * ·) (1 : Matrix (Fin m.nCz) (Fin m.nCz) ℚ) (arAvg m.nCr)

/-- The z-face block of the face averaging operator: `Afz = sp.kron(az, sp.eye(nCr))`. -/
def avgAfz (m : Cyl1DMesh) :
    Matrix (Fin (m.nCz + 1) × Fin m.nCr) (Fin m.nCz × Fin m.nCr) ℚ :=
  Matrix.kroneckerMap (· * ·) (azAvg m.nCz) (1 : Matrix (Fin m.nCr) (Fin m.nCr) ℚ)

/-- Averaging operator from cell faces to cell centres:
`aveF2CC = sp.vstack((Afr, Afz)).T`.  Rows are cells; columns are faces
(r faces, then z faces). -/
def aveF2CC (m : Cyl1DMesh) :
    Matrix (Fin m.nCz × Fin m.nCr)
      ((Fin m.nCz × Fin m.nCr) ⊕ ((Fin (m.nCz + 1) × Fin m.nCr))) ℚ :=
  (Matrix.fromRows (avgAfr m) (avgAfz m)).transpose

/-- Argument forms accepted by `getMass` for `materialProp`: omitted (`None`),
a float scalar, or a numpy 1D array. -/
inductive MatProp where
  | omitted : MatProp
  | scalar (q : ℚ) : MatProp
  | arr (l : List ℚ) : MatProp
deriving DecidableEq, Repr

/-- The materialProp preprocessing of `getMass` (lines 303-310): `None` becomes
`ones(nC)`, a float is broadcast, a size-`nCz` array is `repeat`ed `nCr` times
(layered-earth broadcast: cell `(k, j)` takes layer value `k`), and anything
whose final size differs from `nC` trips the shape assert.  The resulting
per-cell vector is indexed by (z-cell, r-cell), matching the flattened numpy
cell ordering. -/
def broadcastProp (m : Cyl1DMesh) (p : MatProp) :
    Except String (Fin m.nCz × Fin m.nCr → ℚ) :=
  match p with
  | .omitted => .ok fun _ => 1
  | .scalar q => .ok fun _ => q
  | .arr l =>
    if l.length = m.nCz then .ok fun kj => l.getD kj.1.val 0
    else if l.length = m.nC then .ok fun kj => l.getD (kj.1.val * m.nCr + kj.2.val) 0
    else .error "materialProp incorrect shape"

/-- Result of `getMass`: the diagonal of the mass matrix (`sdiag(diag)` packs
it into a diagonal sparse matrix), which is edge-indexed for `loc='e'` and
face-indexed for `loc='f'`. -/
def MassDiag (m : Cyl1DMesh) :=
  (Fin (m.nCz + 1) × Fin m.nCr → ℚ) ⊕
    (((Fin m.nCz × Fin m.nCr) ⊕ (Fin (m.nCz + 1) × Fin m.nCr)) → ℚ)

/-- Model of `Cyl1DMesh.getMass(materialProp, loc)`:
`diag = Av.T * (vol * materialProp)` with `Av = aveE2CC` for `loc='e'` and
`Av = aveF2CC` for `loc='f'`; any other `loc` raises `ValueError`. -/
def getMass (pi : ℚ) (m : Cyl1DMesh) (p : MatProp) (loc : String) :
    Except String (MassDiag m) := do
  let mp ← broadcastProp m p
  if loc = "e" then
    return .inl ((aveE2CC m).transpose.mulVec (vol pi m * mp))
  else if loc = "f" then
    return .inr ((aveF2CC m).transpose.mulVec (vol pi m * mp))
  else
    .error "Invalid loc"

end Cyl1DMesh

/-! ## NSEM receivers (SimPEG/EM/NSEM/RxNSEM.py) -/

/-- Tensor orientation of a receiver, the six choices accepted by
`BaseRxNSEM_Point.orientation` (`properties.StringChoice`). -/
inductive RxOrient where
  | xx | xy | yx | yy | zx | zy
deriving DecidableEq, Repr

/-- Component of the field to be measured: `'real'` or `'imag'`. -/
inductive RxComp where
  | real | imag
deriving DecidableEq, Repr

/-- Extraction of the requested component of a complex vector, modelling
`getattr(rx_eval_complex, self.component)`. -/
def compExtract (comp : RxComp) (w : Fin n → Cq) : Fin n → ℚ :=
  fun i => match comp with | .real => (w i).re | .imag => (w i).im

/-- Division of a complex vector by a real scalar (`... / mu_0`). -/
def vdivQ (w : Fin n → Cq) (q : ℚ) : Fin n → Cq := fun i => (w i).divQ q

/-- Evaluation context of a 3D NSEM point receiver: the interpolation
matrices built from the mesh (`Pex` … `Pbz`, plus the numerator-side pair of
`Point_horizontalmagvar3D`), the polarized field values of the field-solution
object `f`, and the directional-derivative operators of `f`.  `f` is an
external collaborator; its derivative operators are modelled as exact
forward/adjoint pairs: forward mode applies the stored matrix, adjoint mode
its transpose.  `nD` is the number of receiver locations, `nE` and `nF` the
edge and face field sizes, and `nU` the size of the solution vector `u`. -/
structure NSEMCtx (nD nE nF nU : ℕ) where
  mu : ℚ
  Pex : Matrix (Fin nD) (Fin nE) Cq
  Pey : Matrix (Fin nD) (Fin nE) Cq
  Pbx : Matrix (Fin nD) (Fin nF) Cq
  Pby : Matrix (Fin nD) (Fin nF) Cq
  Pbz : Matrix (Fin nD) (Fin nF) Cq
  Pbx_num : Matrix (Fin nD) (Fin nF) Cq
  Pby_num : Matrix (Fin nD) (Fin nF) Cq
  e_px : Fin nE → Cq
  e_py : Fin nE → Cq
  b_px : Fin nF → Cq
  b_py : Fin nF → Cq
  e_pxDeriv : Matrix (Fin nE) (Fin nU) Cq
  e_pyDeriv : Matrix (Fin nE) (Fin nU) Cq
  b_pxDeriv : Matrix (Fin nF) (Fin nU) Cq
  b_pyDeriv : Matrix (Fin nF) (Fin nU) Cq

namespace NSEMCtx

variable {nD nE nF nU : ℕ}

/-- Interpolated x-electric field, x polarization: `Pex * f[src, 'e_px']`. -/
def ex_px (c : NSEMCtx nD nE nF nU) : Fin nD → Cq := c.Pex.mulVec c.e_px

/-- Interpolated y-electric field, x polarization. -/
def ey_px (c : NSEMCtx nD nE nF nU) : Fin nD → Cq := c.Pey.mulVec c.e_px

/-- Interpolated x-electric field, y polarization. -/
def ex_py (c : NSEMCtx nD nE nF nU) : Fin nD → Cq := c.Pex.mulVec c.e_py

/-- Interpolated y-electric field, y polarization. -/
def ey_py (c : NSEMCtx nD nE nF nU) : Fin nD → Cq := c.Pey.mulVec c.e_py

/-- Interpolated x-magnetic field, x polarization: `Pbx * f[src, 'b_px'] / mu_0`. -/
def hx_px (c : NSEMCtx nD nE nF nU) : Fin nD → Cq := vdivQ (c.Pbx.mulVec c.b_px) c.mu

/-- Interpolated y-magnetic field, x polarization. -/
def hy_px (c : NSEMCtx nD nE nF nU) : Fin nD → Cq := vdivQ (c.Pby.mulVec c.b_px) c.mu

/-- Interpolated z-magnetic field, x polarization. -/
def hz_px (c : NSEMCtx nD nE nF nU) : Fin nD → Cq := vdivQ (c.Pbz.mulVec c.b_px) c.mu

/-- Interpolated x-magnetic field, y polarization. -/
def hx_py (c : NSEMCtx nD nE nF nU) : Fin nD → Cq := vdivQ (c.Pbx.mulVec c.b_py) c.mu

/-- Interpolated y-magnetic field, y polarization. -/
def hy_py (c : NSEMCtx nD nE nF nU) : Fin nD → Cq := vdivQ (c.Pby.mulVec c.b_py) c.mu

/-- Interpolated z-magnetic field, y polarization. -/
def hz_py (c : NSEMCtx nD nE nF nU) : Fin nD → Cq := vdivQ (c.Pbz.mulVec c.b_py) c.mu

/-- Forward directional derivative `Pex * f._e_pxDeriv_u(src, v)`. -/
def ex_px_u (c : NSEMCtx nD nE nF nU) (v : Fin nU → Cq) : Fin nD → Cq :=
  c.Pex.mulVec (c.e_pxDeriv.mulVec v)

/-- Forward directional derivative `Pey * f._e_pxDeriv_u(src, v)`. -/
def ey_px_u (c : NSEMCtx nD nE nF nU) (v : Fin nU → Cq) : Fin nD → Cq :=
  c.Pey.mulVec (c.e_pxDeriv.mulVec v)

/-- Forward directional derivative `Pex * f._e_pyDeriv_u(src, v)`. -/
def ex_py_u (c : NSEMCtx nD nE nF nU) (v : Fin nU → Cq) : Fin nD → Cq :=
  c.Pex.mulVec (c.e_pyDeriv.mulVec v)

/-- Forward directional derivative `Pey * f._e_pyDeriv_u(src, v)`. -/
def ey_py_u (c : NSEMCtx nD nE nF nU) (v : Fin nU → Cq) : Fin nD → Cq :=
  c.Pey.mulVec (c.e_pyDeriv.mulVec v)

/-- Forward directional derivative `Pbx * f._b_pxDeriv_u(src, v) / mu_0`. -/
def hx_px_u (c : NSEMCtx nD nE nF nU) (v : Fin nU → Cq) : Fin nD → Cq :=
  vdivQ (c.Pbx.mulVec (c.b_pxDeriv.mulVec v)) c.mu

/-- Forward directional derivative `Pby * f._b_pxDeriv_u(src, v) / mu_0`. -/
def hy_px_u (c : NSEMCtx nD nE nF nU) (v : Fin nU → Cq) : Fin nD → Cq :=
  vdivQ (c.Pby.mulVec (c.b_pxDeriv.mulVec v)) c.mu

/-- Forward directional derivative `Pbz * f._b_pxDeriv_u(src, v) / mu_0`. -/
def hz_px_u (c : NSEMCtx nD nE nF nU) (v : Fin nU → Cq) : Fin nD → Cq :=
  vdivQ (c.Pbz.mulVec (c.b_pxDeriv.mulVec v)) c.mu

/-- Forward directional derivative `Pbx * f._b_pyDeriv_u(src, v) / mu_0`. -/
def hx_py_u (c : NSEMCtx nD nE nF nU) (v : Fin nU → Cq) : Fin nD → Cq :=
  vdivQ (c.Pbx.mulVec (c.b_pyDeriv.mulVec v)) c.mu

/-- Forward directional derivative `Pby * f._b_pyDeriv_u(src, v) / mu_0`. -/
def hy_py_u (c : NSEMCtx nD nE nF nU) (v : Fin nU → Cq) : Fin nD → Cq :=
  vdivQ (c.Pby.mulVec (c.b_pyDeriv.mulVec v)) c.mu

/-- Forward directional derivative `Pbz * f._b_pyDeriv_u(src, v) / mu_0`. -/
def hz_py_u (c : NSEMCtx nD nE nF nU) (v : Fin nU → Cq) : Fin nD → Cq :=
  vdivQ (c.Pbz.mulVec (c.b_pyDeriv.mulVec v)) c.mu

/-- The diagonal of `_Hd = sdiag(1./(sdiag(hx_px)*hy_py - sdiag(hx_py)*hy_px))`,
the reciprocal horizontal-magnetic determinant. -/
def Hd (c : NSEMCtx nD nE nF nU) : Fin nD → Cq :=
  fun i => (c.hx_px i * c.hy_py i - c.hx_py i * c.hy_px i)⁻¹

/-- Forward directional derivative `_Hd_uV` of the determinant (quotient rule
expanded across the four product terms). -/
def Hd_uV (c : NSEMCtx nD nE nF nU) (v : Fin nU → Cq) : Fin nD → Cq :=
  c.hy_py * c.hx_px_u v + c.hx_px * c.hy_py_u v
    - c.hx_py * c.hy_px_u v - c.hy_px * c.hx_py_u v

/-- Adjoint-side field value `_aex_px = mkvc(mkvc(e_px, 2).T * Pex.T)`
(a row vector; as a vector it coincides with `ex_px`). -/
def aex_px (c : NSEMCtx nD nE nF nU) : Fin nD → Cq :=
  Matrix.vecMul c.e_px c.Pex.transpose

/-- Adjoint-side field value `_aey_px`. -/
def aey_px (c : NSEMCtx nD nE nF nU) : Fin nD → Cq :=
  Matrix.vecMul c.e_px c.Pey.transpose

/-- Adjoint-side field value `_aex_py`. -/
def aex_py (c : NSEMCtx nD nE nF nU) : Fin nD → Cq :=
  Matrix.vecMul c.e_py c.Pex.transpose

/-- Adjoint-side field value `_aey_py`. -/
def aey_py (c : NSEMCtx nD nE nF nU) : Fin nD → Cq :=
  Matrix.vecMul c.e_py c.Pey.transpose

/-- Adjoint-side field value `_ahx_px = mkvc(mkvc(b_px, 2).T / mu_0 * Pbx.T)`. -/
def ahx_px (c : NSEMCtx nD nE nF nU) : Fin nD → Cq :=
  Matrix.vecMul (fun i => (c.b_px i).divQ c.mu) c.Pbx.transpose

/-- Adjoint-side field value `_ahy_px`. -/
def ahy_px (c : NSEMCtx nD nE nF nU) : Fin nD → Cq :=
  Matrix.vecMul (fun i => (c.b_px i).divQ c.mu) c.Pby.transpose

/-- Adjoint-side field value `_ahz_px`. -/
def ahz_px (c : NSEMCtx nD nE nF nU) : Fin nD → Cq :=
  Matrix.vecMul (fun i => (c.b_px i).divQ c.mu) c.Pbz.transpose

/-- Adjoint-side field value `_ahx_py`. -/
def ahx_py (c : NSEMCtx nD nE nF nU) : Fin nD → Cq :=
  Matrix.vecMul (fun i => (c.b_py i).divQ c.mu) c.Pbx.transpose

/-- Adjoint-side field value `_ahy_py`. -/
def ahy_py (c : NSEMCtx nD nE nF nU) : Fin nD → Cq :=
  Matrix.vecMul (fun i => (c.b_py i).divQ c.mu) c.Pby.transpose

/-- Adjoint-side field value `_ahz_py`. -/
def ahz_py (c : NSEMCtx nD nE nF nU) : Fin nD → Cq :=
  Matrix.vecMul (fun i => (c.b_py i).divQ c.mu) c.Pbz.transpose

/-- Adjoint directional derivative `_aex_px_u(vec) = f._e_pxDeriv_u(src, Pex.T * vec, adjoint=True)`. -/
def aex_px_u (c : NSEMCtx nD nE nF nU) (w : Fin nD → Cq) : Fin nU → Cq :=
  c.e_pxDeriv.transpose.mulVec (c.Pex.transpose.mulVec w)

/-- Adjoint directional derivative `_aey_px_u`. -/
def aey_px_u (c : NSEMCtx nD nE nF nU) (w : Fin nD → Cq) : Fin nU → Cq :=
  c.e_pxDeriv.transpose.mulVec (c.Pey.transpose.mulVec w)

/-- Adjoint directional derivative `_aex_py_u`. -/
def aex_py_u (c : NSEMCtx nD nE nF nU) (w : Fin nD → Cq) : Fin nU → Cq :=
  c.e_pyDeriv.transpose.mulVec (c.Pex.transpose.mulVec w)

/-- Adjoint directional derivative `_aey_py_u`. -/
def aey_py_u (c : NSEMCtx nD nE nF nU) (w : Fin nD → Cq) : Fin nU → Cq :=
  c.e_pyDeriv.transpose.mulVec (c.Pey.transpose.mulVec w)

/-- Adjoint directional derivative
`_ahx_px_u(vec) = f._b_pxDeriv_u(src, Pbx.T * vec, adjoint=True) / mu_0`. -/
def ahx_px_u (c : NSEMCtx nD nE nF nU) (w : Fin nD → Cq) : Fin nU → Cq :=
  vdivQ (c.b_pxDeriv.transpose.mulVec (c.Pbx.transpose.mulVec w)) c.mu

/-- Adjoint directional derivative `_ahy_px_u`. -/
def ahy_px_u (c : NSEMCtx nD nE nF nU) (w : Fin nD → Cq) : Fin nU → Cq :=
  vdivQ (c.b_pxDeriv.transpose.mulVec (c.Pby.transpose.mulVec w)) c.mu

/-- Adjoint directional derivative `_ahz_px_u`. -/
def ahz_px_u (c : NSEMCtx nD nE nF nU) (w : Fin nD → Cq) : Fin nU → Cq :=
  vdivQ (c.b_pxDeriv.transpose.mulVec (c.Pbz.transpose.mulVec w)) c.mu

/-- Adjoint directional derivative `_ahx_py_u`. -/
def ahx_py_u (c : NSEMCtx nD nE nF nU) (w : Fin nD → Cq) : Fin nU → Cq :=
  vdivQ (c.b_pyDeriv.transpose.mulVec (c.Pbx.transpose.mulVec w)) c.mu

/-- Adjoint directional derivative `_ahy_py_u`. -/
def ahy_py_u (c : NSEMCtx nD nE nF nU) (w : Fin nD → Cq) : Fin nU → Cq :=
  vdivQ (c.b_pyDeriv.transpose.mulVec (c.Pby.transpose.mulVec w)) c.mu

/-- Adjoint directional derivative `_ahz_py_u`. -/
def ahz_py_u (c : NSEMCtx nD nE nF nU) (w : Fin nD → Cq) : Fin nU → Cq :=
  vdivQ (c.b_pyDeriv.transpose.mulVec (c.Pbz.transpose.mulVec w)) c.mu

/-- The diagonal of `_aHd = sdiag(1./(sdiag(ahx_px)*ahy_py - sdiag(ahx_py)*ahy_px))`. -/
def aHd (c : NSEMCtx nD nE nF nU) : Fin nD → Cq :=
  fun i => (c.ahx_px i * c.ahy_py i - c.ahx_py i * c.ahy_px i)⁻¹

/-- Verbatim translation of `_aHd_uV` (RxNSEM.py lines 338-344).  Note that
the source repeats the term `_ahx_px_u(sdiag(_ahy_py) * x)` twice where the
transpose of `_Hd_uV` would require `_ahy_py_u(sdiag(_ahx_px) * x)` as the
second term; the translation reproduces this exactly. -/
def aHd_uV (c : NSEMCtx nD nE nF nU) (x : Fin nD → Cq) : Fin nU → Cq :=
  c.ahx_px_u (c.ahy_py * x) + c.ahx_px_u (c.ahy_py * x)
    - c.ahy_px_u (c.ahx_py * x) - c.ahx_py_u (c.ahy_px * x)

/-- Reshape of a flat `2*n` adjoint result to an `(n, 2)` matrix, modelling
`rx_deriv_real.reshape((2, mesh.nE)).T`: entry `(e, p)` is flat entry
`p * n + e` (numpy row-major order). -/
def reshape2T (n : ℕ) (w : Fin (2 * n) → Cq) : Fin n → Fin 2 → Cq :=
  fun e p => w ⟨p.val * n + e.val, by
    have hp := p.isLt
    have he := e.isLt
    calc p.val * n + e.val < p.val * n + n := by omega
      _ = (p.val + 1) * n := by ring
      _ ≤ 2 * n := Nat.mul_le_mul_right n (by omega)⟩

/-- Numerator `Zij` of `Point_impedance3D.eval` for each handled orientation;
the fall-through orientations leave `Zij` unassigned and the subsequent use
raises `UnboundLocalError`. -/
def imped3D_Zij (c : NSEMCtx nD nE nF nU) (o : RxOrient) : Except String (Fin nD → Cq) :=
  match o with
  | .xx => .ok (c.ex_px * c.hy_py - c.ex_py * c.hy_px)
  | .xy => .ok (-c.ex_px * c.hx_py + c.ex_py * c.hx_px)
  | .yx => .ok (c.ey_px * c.hy_py - c.ey_py * c.hy_px)
  | .yy => .ok (-c.ey_px * c.hx_py + c.ey_py * c.hx_px)
  | _ => .error "UnboundLocalError"

/-- `Point_impedance3D.eval(src, mesh, f, return_complex=True)`:
`rx_eval_complex = _Hd * Zij`. -/
def imped3D_evalC (c : NSEMCtx nD nE nF nU) (o : RxOrient) : Except String (Fin nD → Cq) :=
  (c.imped3D_Zij o).map (fun z => c.Hd * z)

/-- `Point_impedance3D.eval` with component extraction (`return_complex=False`). -/
def imped3D_eval (c : NSEMCtx nD nE nF nU) (o : RxOrient) (comp : RxComp) :
    Except String (Fin nD → ℚ) :=
  (c.imped3D_evalC o).map (compExtract comp)

/-- The forward-mode numerator derivative `ZijN_uV` of
`Point_impedance3D.evalDeriv` (adjoint=False branch). -/
def imped3D_ZijN_uV (c : NSEMCtx nD nE nF nU) (o : RxOrient) (v : Fin nU → Cq) :
    Except String (Fin nD → Cq) :=
  match o with
  | .xx => .ok (c.hy_py * c.ex_px_u v + c.ex_px * c.hy_py_u v
      - c.ex_py * c.hy_px_u v - c.hy_px * c.ex_py_u v)
  | .xy => .ok (-c.hx_py * c.ex_px_u v - c.ex_px * c.hx_py_u v
      + c.ex_py * c.hx_px_u v + c.hx_px * c.ex_py_u v)
  | .yx => .ok (c.hy_py * c.ey_px_u v + c.ey_px * c.hy_py_u v
      - c.ey_py * c.hy_px_u v - c.hy_px * c.ey_py_u v)
  | .yy => .ok (-c.hx_py * c.ey_px_u v - c.ey_px * c.hx_py_u v
      + c.ey_py * c.hx_px_u v + c.hx_px * c.ey_py_u v)
  | _ => .error "UnboundLocalError"

/-- `Point_impedance3D.evalDeriv` with `adjoint=False`:
`rx_deriv_real = _Hd * (ZijN_uV - sdiag(Zij) * _Hd_uV(v))` with
`Zij = eval(src, mesh, f, True)`, then component extraction. -/
def imped3D_evalDeriv_fwd (c : NSEMCtx nD nE nF nU) (o : RxOrient) (comp : RxComp)
    (v : Fin nU → Cq) : Except String (Fin nD → ℚ) := do
  let zn ← c.imped3D_ZijN_uV o v
  let zij ← c.imped3D_evalC o
  return compExtract comp (c.Hd * (zn - zij * c.Hd_uV v))

/-- The diagonal `Zij = sdiag(_aHd * (...))` of the adjoint branch of
`Point_impedance3D.evalDeriv`. -/
def imped3D_aZij (c : NSEMCtx nD nE nF nU) (o : RxOrient) : Except String (Fin nD → Cq) :=
  match o with
  | .xx => .ok (c.aHd * (c.ahy_py * c.aex_px - c.ahy_px * c.aex_py))
  | .xy => .ok (c.aHd * (-c.ahx_py * c.aex_px + c.ahx_px * c.aex_py))
  | .yx => .ok (c.aHd * (c.ahy_py * c.aey_px - c.ahy_px * c.aey_py))
  | .yy => .ok (c.aHd * (-c.ahx_py * c.aey_px + c.ahx_px * c.aey_py))
  | _ => .error "UnboundLocalError"

/-- The adjoint numerator derivative `ZijN_uV(x)` of the adjoint branch of
`Point_impedance3D.evalDeriv`. -/
def imped3D_aZijN_uV (c : NSEMCtx nD nE nF nU) (o : RxOrient) (x : Fin nD → Cq) :
    Except String (Fin nU → Cq) :=
  match o with
  | .xx => .ok (c.aex_px_u (c.ahy_py * x) + c.ahy_py_u (c.aex_px * x)
      - c.ahy_px_u (c.aex_py * x) - c.aex_py_u (c.ahy_px * x))
  | .xy => .ok (-c.aex_px_u (c.ahx_py * x) - c.ahx_py_u (c.aex_px * x)
      + c.ahx_px_u (c.aex_py * x) + c.aex_py_u (c.ahx_px * x))
  | .yx => .ok (c.aey_px_u (c.ahy_py * x) + c.ahy_py_u (c.aey_px * x)
      - c.ahy_px_u (c.aey_py * x) - c.aey_py_u (c.ahy_px * x))
  | .yy => .ok (-c.aey_px_u (c.ahx_py * x) - c.ahx_py_u (c.aey_px * x)
      + c.ahx_px_u (c.aey_py * x) + c.aey_py_u (c.ahx_px * x))
  | _ => .error "UnboundLocalError"

/-- `Point_impedance3D.evalDeriv` with `adjoint=True`, before the reshape:
`rx_deriv_real = ZijN_uV(_aHd * v) - _aHd_uV(Zij.T * _aHd * v)` (the flat
solution-space vector). -/
def imped3D_evalDeriv_adjFlat (c : NSEMCtx nD nE nF nU) (o : RxOrient)
    (v : Fin nD → Cq) : Except String (Fin nU → Cq) := do
  let zn ← c.imped3D_aZijN_uV o (c.aHd * v)
  let zij ← c.imped3D_aZij o
  return zn - c.aHd_uV (zij * (c.aHd * v))

/-- `Point_impedance3D.evalDeriv` with `adjoint=True`: the flat result is
reshaped to `(mesh.nE, 2)` and the imag component multiplies the real-path
result by `1j`. -/
def imped3D_evalDeriv_adj (c : NSEMCtx nD nE nF (2 * nE)) (o : RxOrient)
    (comp : RxComp) (v : Fin nD → Cq) : Except String (Fin nE → Fin 2 → Cq) :=
  (c.imped3D_evalDeriv_adjFlat o v).map (fun w =>
    match comp with
    | .real => reshape2T nE w
    | .imag => fun e p => Cq.I * reshape2T nE w e p)

/-- Numerator `Tij` of `Point_tipper3D.eval` for each handled orientation. -/
def tipper3D_Tij (c : NSEMCtx nD nE nF nU) (o : RxOrient) : Except String (Fin nD → Cq) :=
  match o with
  | .zx => .ok (-c.hy_px * c.hz_py + c.hy_py * c.hz_px)
  | .zy => .ok (c.hx_px * c.hz_py - c.hx_py * c.hz_px)
  | _ => .error "UnboundLocalError"

/-- `Point_tipper3D.eval(src, mesh, f, return_complex=True)`. -/
def tipper3D_evalC (c : NSEMCtx nD nE nF nU) (o : RxOrient) : Except String (Fin nD → Cq) :=
  (c.tipper3D_Tij o).map (fun z => c.Hd * z)

/-- `Point_tipper3D.eval` with component extraction. -/
def tipper3D_eval (c : NSEMCtx nD nE nF nU) (o : RxOrient) (comp : RxComp) :
    Except String (Fin nD → ℚ) :=
  (c.tipper3D_evalC o).map (compExtract comp)

/-- The forward-mode numerator derivative `TijN_uV` of `Point_tipper3D.evalDeriv`. -/
def tipper3D_TijN_uV (c : NSEMCtx nD nE nF nU) (o : RxOrient) (v : Fin nU → Cq) :
    Except String (Fin nD → Cq) :=
  match o with
  | .zx => .ok (-c.hy_px * c.hz_py_u v - c.hz_py * c.hy_px_u v
      + c.hy_py * c.hz_px_u v + c.hz_px * c.hy_py_u v)
  | .zy => .ok (c.hz_py * c.hx_px_u v + c.hx_px * c.hz_py_u v
      - c.hx_py * c.hz_px_u v - c.hz_px * c.hx_py_u v)
  | _ => .error "UnboundLocalError"

/-- `Point_tipper3D.evalDeriv` with `adjoint=False`. -/
def tipper3D_evalDeriv_fwd (c : NSEMCtx nD nE nF nU) (o : RxOrient) (comp : RxComp)
    (v : Fin nU → Cq) : Except String (Fin nD → ℚ) := do
  let tn ← c.tipper3D_TijN_uV o v
  let tij ← c.tipper3D_evalC o
  return compExtract comp (c.Hd * (tn - tij * c.Hd_uV v))

/-- The diagonal `Tij = sdiag(_aHd * (...))` of the adjoint branch of
`Point_tipper3D.evalDeriv`. -/
def tipper3D_aTij (c : NSEMCtx nD nE nF nU) (o : RxOrient) : Except String (Fin nD → Cq) :=
  match o with
  | .zx => .ok (c.aHd * (-c.ahz_py * c.ahy_px + c.ahz_px * c.ahy_py))
  | .zy => .ok (c.aHd * (c.ahz_py * c.ahx_px - c.ahz_px * c.ahx_py))
  | _ => .error "UnboundLocalError"

/-- The adjoint numerator derivative `TijN_uV(x)` of `Point_tipper3D.evalDeriv`. -/
def tipper3D_aTijN_uV (c : NSEMCtx nD nE nF nU) (o : RxOrient) (x : Fin nD → Cq) :
    Except String (Fin nU → Cq) :=
  match o with
  | .zx => .ok (-c.ahz_py_u (c.ahy_px * x) - c.ahy_px_u (c.ahz_py * x)
      + c.ahy_py_u (c.ahz_px * x) + c.ahz_px_u (c.ahy_py * x))
  | .zy => .ok (c.ahx_px_u (c.ahz_py * x) + c.ahz_py_u (c.ahx_px * x)
      - c.ahx_py_u (c.ahz_px * x) - c.ahz_px_u (c.ahx_py * x))
  | _ => .error "UnboundLocalError"

/-- `Point_tipper3D.evalDeriv` with `adjoint=True`, before the reshape. -/
def tipper3D_evalDeriv_adjFlat (c : NSEMCtx nD nE nF nU) (o : RxOrient)
    (v : Fin nD → Cq) : Except String (Fin nU → Cq) := do
  let tn ← c.tipper3D_aTijN_uV o (c.aHd * v)
  let tij ← c.tipper3D_aTij o
  return tn - c.aHd_uV (tij * (c.aHd * v))

/-- `Point_tipper3D.evalDeriv` with `adjoint=True`, reshaped, with the imag
component obtained by multiplying the real path by `1j`. -/
def tipper3D_evalDeriv_adj (c : NSEMCtx nD nE nF (2 * nE)) (o : RxOrient)
    (comp : RxComp) (v : Fin nD → Cq) : Except String (Fin nE → Fin 2 → Cq) :=
  (c.tipper3D_evalDeriv_adjFlat o v).map (fun w =>
    match comp with
    | .real => reshape2T nE w
    | .imag => fun e p => Cq.I * reshape2T nE w e p)

/-- Numerator-location magnetic field `_hx_num_px = Pbx_num * f[src,'b_px'] / mu_0`
of `Point_horizontalmagvar3D`. -/
def hx_num_px (c : NSEMCtx nD nE nF nU) : Fin nD → Cq := vdivQ (c.Pbx_num.mulVec c.b_px) c.mu

/-- Numerator-location magnetic field `_hy_num_px`. -/
def hy_num_px (c : NSEMCtx nD nE nF nU) : Fin nD → Cq := vdivQ (c.Pby_num.mulVec c.b_px) c.mu

/-- Numerator-location magnetic field `_hx_num_py`. -/
def hx_num_py (c : NSEMCtx nD nE nF nU) : Fin nD → Cq := vdivQ (c.Pbx_num.mulVec c.b_py) c.mu

/-- Numerator-location magnetic field `_hy_num_py`. -/
def hy_num_py (c : NSEMCtx nD nE nF nU) : Fin nD → Cq := vdivQ (c.Pby_num.mulVec c.b_py) c.mu

/-- Forward derivative `_hx_num_px_u(vec) = Pbx_num * f._b_pxDeriv_u(src, vec) / mu_0`. -/
def hx_num_px_u (c : NSEMCtx nD nE nF nU) (v : Fin nU → Cq) : Fin nD → Cq :=
  vdivQ (c.Pbx_num.mulVec (c.b_pxDeriv.mulVec v)) c.mu

/-- Forward derivative `_hy_num_px_u`. -/
def hy_num_px_u (c : NSEMCtx nD nE nF nU) (v : Fin nU → Cq) : Fin nD → Cq :=
  vdivQ (c.Pby_num.mulVec (c.b_pxDeriv.mulVec v)) c.mu

/-- Forward derivative `_hx_num_py_u`. -/
def hx_num_py_u (c : NSEMCtx nD nE nF nU) (v : Fin nU → Cq) : Fin nD → Cq :=
  vdivQ (c.Pbx_num.mulVec (c.b_pyDeriv.mulVec v)) c.mu

/-- Forward derivative `_hy_num_py_u`. -/
def hy_num_py_u (c : NSEMCtx nD nE nF nU) (v : Fin nU → Cq) : Fin nD → Cq :=
  vdivQ (c.Pby_num.mulVec (c.b_pyDeriv.mulVec v)) c.mu

/-- Adjoint-side value `_ahx_num_px = mkvc(mkvc(b_px,2).T / mu_0 * Pbx_num.T)`. -/
def ahx_num_px (c : NSEMCtx nD nE nF nU) : Fin nD → Cq :=
  Matrix.vecMul (fun i => (c.b_px i).divQ c.mu) c.Pbx_num.transpose

/-- Adjoint-side value `_ahy_num_px`. -/
def ahy_num_px (c : NSEMCtx nD nE nF nU) : Fin nD → Cq :=
  Matrix.vecMul (fun i => (c.b_px i).divQ c.mu) c.Pby_num.transpose

/-- Adjoint-side value `_ahx_num_py`. -/
def ahx_num_py (c : NSEMCtx nD nE nF nU) : Fin nD → Cq :=
  Matrix.vecMul (fun i => (c.b_py i).divQ c.mu) c.Pbx_num.transpose

/-- Adjoint-side value `_ahy_num_py`. -/
def ahy_num_py (c : NSEMCtx nD nE nF nU) : Fin nD → Cq :=
  Matrix.vecMul (fun i => (c.b_py i).divQ c.mu) c.Pby_num.transpose

/-- Adjoint derivative `_ahx_num_px_u(vec) = f._b_pxDeriv_u(src, Pbx_num.T * vec, adjoint=True) / mu_0`. -/
def ahx_num_px_u (c : NSEMCtx nD nE nF nU) (w : Fin nD → Cq) : Fin nU → Cq :=
  vdivQ (c.b_pxDeriv.transpose.mulVec (c.Pbx_num.transpose.mulVec w)) c.mu

/-- Adjoint derivative `_ahy_num_px_u`. -/
def ahy_num_px_u (c : NSEMCtx nD nE nF nU) (w : Fin nD → Cq) : Fin nU → Cq :=
  vdivQ (c.b_pxDeriv.transpose.mulVec (c.Pby_num.transpose.mulVec w)) c.mu

/-- Adjoint derivative `_ahx_num_py_u`. -/
def ahx_num_py_u (c : NSEMCtx nD nE nF nU) (w : Fin nD → Cq) : Fin nU → Cq :=
  vdivQ (c.b_pyDeriv.transpose.mulVec (c.Pbx_num.transpose.mulVec w)) c.mu

/-- Adjoint derivative `_ahy_num_py_u`. -/
def ahy_num_py_u (c : NSEMCtx nD nE nF nU) (w : Fin nD → Cq) : Fin nU → Cq :=
  vdivQ (c.b_pyDeriv.transpose.mulVec (c.Pby_num.transpose.mulVec w)) c.mu

/-- The Schmucker-convention correction of `Point_horizontalmagvar3D.eval`:
1 on the diagonal orientations, 0 off the diagonal. -/
def hmv_corr (o : RxOrient) : Cq :=
  match o with
  | .xx => 1
  | .xy => 0
  | .yx => 0
  | .yy => 1
  | _ => 0

/-- Numerator `Mij` of `Point_horizontalmagvar3D.eval` for each handled
orientation (its local `schmucker_corr` is `hmv_corr`). -/
def hmv_Mij (c : NSEMCtx nD nE nF nU) (o : RxOrient) : Except String (Fin nD → Cq) :=
  match o with
  | .xx => .ok (c.hx_num_px * c.hy_py - c.hx_num_py * c.hy_px)
  | .xy => .ok (-c.hx_num_px * c.hx_py + c.hx_num_py * c.hx_px)
  | .yx => .ok (c.hy_num_px * c.hy_py - c.hy_num_py * c.hy_px)
  | .yy => .ok (-c.hy_num_px * c.hx_py + c.hy_num_py * c.hx_px)
  | _ => .error "UnboundLocalError"

/-- `Point_horizontalmagvar3D.eval(..., return_complex=True)`:
`rx_eval_complex = (_Hd * Mij) - schmucker_corr`.  The class's own `_Hd`
override is formula-identical to the base-class `_Hd` (`_sDiag` versus
`sdiag` both build the diagonal of a vector), so `Hd` is reused. -/
def hmv_evalC (c : NSEMCtx nD nE nF nU) (o : RxOrient) : Except String (Fin nD → Cq) :=
  (c.hmv_Mij o).map (fun mij i => (c.Hd * mij) i - hmv_corr o)

/-- `Point_horizontalmagvar3D.eval` with component extraction. -/
def hmv_eval (c : NSEMCtx nD nE nF nU) (o : RxOrient) (comp : RxComp) :
    Except String (Fin nD → ℚ) :=
  (c.hmv_evalC o).map (compExtract comp)

/-- The forward-mode numerator derivative `MijN_uV` of
`Point_horizontalmagvar3D.evalDeriv`. -/
def hmv_MijN_uV (c : NSEMCtx nD nE nF nU) (o : RxOrient) (v : Fin nU → Cq) :
    Except String (Fin nD → Cq) :=
  match o with
  | .xx => .ok (c.hy_py * c.hx_num_px_u v + c.hx_num_px * c.hy_py_u v
      - c.hx_num_py * c.hy_px_u v - c.hy_px * c.hx_num_py_u v)
  | .xy => .ok (-c.hx_py * c.hx_num_px_u v - c.hx_num_px * c.hx_py_u v
      + c.hx_num_py * c.hx_px_u v + c.hx_px * c.hx_num_py_u v)
  | .yx => .ok (c.hy_py * c.hy_num_px_u v + c.hy_num_px * c.hy_py_u v
      - c.hy_num_py * c.hy_px_u v - c.hy_px * c.hy_num_py_u v)
  | .yy => .ok (-c.hx_py * c.hy_num_px_u v - c.hy_num_px * c.hx_py_u v
      + c.hy_num_py * c.hx_px_u v + c.hx_px * c.hy_num_py_u v)
  | _ => .error "UnboundLocalError"

/-- `Point_horizontalmagvar3D.evalDeriv` with `adjoint=False`:
`Mij = eval(src, mesh, f, True) + schmucker_corr`, then
`rx_deriv_real = _Hd * (MijN_uV - sdiag(Mij) * _Hd_uV(v))` (the class's
`_Hd_uV` override is formula-identical to the base one), then component
extraction. -/
def hmv_evalDeriv_fwd (c : NSEMCtx nD nE nF nU) (o : RxOrient) (comp : RxComp)
    (v : Fin nU → Cq) : Except String (Fin nD → ℚ) := do
  let mn ← c.hmv_MijN_uV o v
  let ec ← c.hmv_evalC o
  let mij : Fin nD → Cq := fun i => ec i + hmv_corr o
  return compExtract comp (c.Hd * (mn - mij * c.Hd_uV v))

/-- The diagonal `Mij = _sDiag(_aHd * (...))` of the adjoint branch of
`Point_horizontalmagvar3D.evalDeriv` (its `_aHd` override is
formula-identical to the base `_aHd`). -/
def hmv_aMij (c : NSEMCtx nD nE nF nU) (o : RxOrient) : Except String (Fin nD → Cq) :=
  match o with
  | .xx => .ok (c.aHd * (c.ahy_py * c.ahx_num_px - c.ahy_px * c.ahx_num_py))
  | .xy => .ok (c.aHd * (-c.ahx_py * c.ahx_num_px + c.ahx_px * c.ahx_num_py))
  | .yx => .ok (c.aHd * (c.ahy_py * c.ahy_num_px - c.ahy_px * c.ahy_num_py))
  | .yy => .ok (c.aHd * (-c.ahx_py * c.ahy_num_px + c.ahx_px * c.ahy_num_py))
  | _ => .error "UnboundLocalError"

/-- The adjoint numerator derivative `MijN_uV(x)` of
`Point_horizontalmagvar3D.evalDeriv`. -/
def hmv_aMijN_uV (c : NSEMCtx nD nE nF nU) (o : RxOrient) (x : Fin nD → Cq) :
    Except String (Fin nU → Cq) :=
  match o with
  | .xx => .ok (c.ahx_num_px_u (c.ahy_py * x) + c.ahy_py_u (c.ahx_num_px * x)
      - c.ahy_px_u (c.ahx_num_py * x) - c.ahx_num_py_u (c.ahy_px * x))
  | .xy => .ok (-c.ahx_num_px_u (c.ahx_py * x) - c.ahx_py_u (c.ahx_num_px * x)
      + c.ahx_px_u (c.ahx_num_py * x) + c.ahx_num_py_u (c.ahx_px * x))
  | .yx => .ok (c.ahy_num_px_u (c.ahy_py * x) + c.ahy_py_u (c.ahy_num_px * x)
      - c.ahy_px_u (c.ahy_num_py * x) - c.ahy_num_py_u (c.ahy_px * x))
  | .yy => .ok (-c.ahy_num_px_u (c.ahx_py * x) - c.ahx_py_u (c.ahy_num_px * x)
      + c.ahx_px_u (c.ahy_num_py * x) + c.ahy_num_py_u (c.ahx_px * x))
  | _ => .error "UnboundLocalError"

/-- `Point_horizontalmagvar3D.evalDeriv` with `adjoint=True`, before the
reshape.  The class's `_aHd_uV` override repeats the same duplicated
`_ahx_px_u(_sDiag(_ahy_py) * x)` term as the base class, so the base
translation `aHd_uV` is reused. -/
def hmv_evalDeriv_adjFlat (c : NSEMCtx nD nE nF nU) (o : RxOrient)
    (v : Fin nD → Cq) : Except String (Fin nU → Cq) := do
  let mn ← c.hmv_aMijN_uV o (c.aHd * v)
  let mij ← c.hmv_aMij o
  return mn - c.aHd_uV (mij * (c.aHd * v))

/-- `Point_horizontalmagvar3D.evalDeriv` with `adjoint=True`, reshaped, with
the imag component obtained by multiplying the real path by `1j`. -/
def hmv_evalDeriv_adj (c : NSEMCtx nD nE nF (2 * nE)) (o : RxOrient)
    (comp : RxComp) (v : Fin nD → Cq) : Except String (Fin nE → Fin 2 → Cq) :=
  (c.hmv_evalDeriv_adjFlat o v).map (fun w =>
    match comp with
    | .real => reshape2T nE w
    | .imag => fun e p => Cq.I * reshape2T nE w e p)

end NSEMCtx

/-- Evaluation context of the 1D impedance receiver `Point_impedance1D`:
`Pex` interpolates the face-defined 1D electric field (size `nP`), `Pbx` the
edge-defined 1D magnetic flux (size `nQ`); `eDeriv`/`bDeriv` are the
directional-derivative operators of the field object (exact forward/adjoint
pairs: adjoint mode applies the transpose). -/
structure NSEM1DCtx (nD nP nQ nU : ℕ) where
  mu : ℚ
  Pex : Matrix (Fin nD) (Fin nP) Cq
  Pbx : Matrix (Fin nD) (Fin nQ) Cq
  e_1d : Fin nP → Cq
  b_1d : Fin nQ → Cq
  eDeriv : Matrix (Fin nP) (Fin nU) Cq
  bDeriv : Matrix (Fin nQ) (Fin nU) Cq

namespace NSEM1DCtx

variable {nD nP nQ nU : ℕ}

/-- Interpolated 1D electric field `_ex = Pex * mkvc(f[src, 'e_1d'], 2)`. -/
def ex (c : NSEM1DCtx nD nP nQ nU) : Fin nD → Cq := c.Pex.mulVec c.e_1d

/-- Interpolated 1D magnetic field `_hx = Pbx * mkvc(f[src, 'b_1d'], 2) / mu_0`. -/
def hx (c : NSEM1DCtx nD nP nQ nU) : Fin nD → Cq := vdivQ (c.Pbx.mulVec c.b_1d) c.mu

/-- Forward derivative `_ex_u(v) = Pex * f._eDeriv_u(src, v)`. -/
def ex_u (c : NSEM1DCtx nD nP nQ nU) (v : Fin nU → Cq) : Fin nD → Cq :=
  c.Pex.mulVec (c.eDeriv.mulVec v)

/-- Forward derivative `_hx_u(v) = Pbx * f._bDeriv_u(src, v) / mu_0`. -/
def hx_u (c : NSEM1DCtx nD nP nQ nU) (v : Fin nU → Cq) : Fin nD → Cq :=
  vdivQ (c.Pbx.mulVec (c.bDeriv.mulVec v)) c.mu

/-- Adjoint derivative `_aex_u(v) = f._eDeriv_u(src, Pex.T * v, adjoint=True)`. -/
def aex_u (c : NSEM1DCtx nD nP nQ nU) (w : Fin nD → Cq) : Fin nU → Cq :=
  c.eDeriv.transpose.mulVec (c.Pex.transpose.mulVec w)

/-- Adjoint derivative `_ahx_u(v) = f._bDeriv_u(src, Pbx.T * v, adjoint=True) / mu_0`. -/
def ahx_u (c : NSEM1DCtx nD nP nQ nU) (w : Fin nD → Cq) : Fin nU → Cq :=
  vdivQ (c.bDeriv.transpose.mulVec (c.Pbx.transpose.mulVec w)) c.mu

/-- The diagonal of `_Hd = sdiag(1./_hx)`. -/
def Hd (c : NSEM1DCtx nD nP nQ nU) : Fin nD → Cq := fun i => (c.hx i)⁻¹

/-- `Point_impedance1D.eval(..., return_complex=True)`:
`rx_eval_complex = -_Hd * _ex`. -/
def evalC (c : NSEM1DCtx nD nP nQ nU) : Fin nD → Cq := -(c.Hd * c.ex)

/-- `Point_impedance1D.eval` with component extraction. -/
def eval (c : NSEM1DCtx nD nP nQ nU) (comp : RxComp) : Fin nD → ℚ :=
  compExtract comp c.evalC

/-- `Point_impedance1D.evalDeriv` with `adjoint=False`:
`Z1d = eval(..., True)`, `Z_N_uV = -_ex_u(v)`, `Z_D_uV = _hx_u(v)`,
`rx_deriv = _Hd * (Z_N_uV - sdiag(Z1d) * Z_D_uV)`, then component
extraction. -/
def evalDeriv_fwd (c : NSEM1DCtx nD nP nQ nU) (comp : RxComp) (v : Fin nU → Cq) :
    Fin nD → ℚ :=
  compExtract comp (c.Hd * (-c.ex_u v - c.evalC * c.hx_u v))

/-- `Point_impedance1D.evalDeriv` with `adjoint=True`:
`rx_deriv = aZ_N_uV(_Hd.T * v) - aZ_D_uV(sdiag(Z1d).T * _Hd.T * v)` with
`aZ_N_uV(x) = -_aex_u(x)` and `aZ_D_uV(x) = _ahx_u(x)`; the imag component
multiplies this by `1j`, the real component casts it to complex.  No reshape
is applied: the result stays a flat solution-space vector. -/
def evalDeriv_adj (c : NSEM1DCtx nD nP nQ nU) (comp : RxComp) (v : Fin nD → Cq) :
    Fin nU → Cq :=
  let rx := -c.aex_u (c.Hd * v) - c.ahx_u (c.evalC * (c.Hd * v))
  match comp with
  | .real => rx
  | .imag => fun i => Cq.I * rx i

end NSEM1DCtx

/-! ## Theorems -/

/-- Entries of a width list read through `getD` at in-range indices are
members of the list. -/
theorem getD_mem_of_lt {l : List ℚ} {i : ℕ} (h : i < l.length) : l.getD i 0 ∈ l := by
  rw [List.getD_eq_getElem l 0 h]
  exact List.getElem_mem h

/-- Partial sums of a list of positive entries are strictly positive once at
least one entry is included. -/
theorem sum_getD_pos {l : List ℚ} (hpos : ∀ x ∈ l, 0 < x) {t : ℕ}
    (ht : 0 < t) (hle : t ≤ l.length) :
    0 < ∑ i in Finset.range t, l.getD i 0 := by
  apply Finset.sum_pos
  · intro i hi
    have : i < l.length := lt_of_lt_of_le (Finset.mem_range.mp hi) hle
    exact hpos _ (getD_mem_of_lt this)
  · exact Finset.nonempty_range_iff.mpr (by omega)

/-- C10: for every mesh, the radial node count equals the radial cell count
(`nNr = nCr`, not `nCr + 1`) and the edge count equals the node count
(`nE = nN`); with positive radial widths there is no node on the symmetry
axis: `vectorNr = cumsum(hr)` starts at `hr[0] > 0` and every node radius is
positive, while the innermost cell-center coordinate `vectorCCr[0]` is
exactly 0 — on the axis, not at `hr[0]/2`. -/
theorem C10_counting_and_axis (m : Cyl1DMesh) (h0 : 0 < m.nCr)
    (hpos : ∀ x ∈ m.hr, 0 < x) :
    m.nNr = m.nCr ∧ m.nE = m.nN ∧
    m.vectorNr ⟨0, h0⟩ = m.hr.headI ∧ 0 < m.hr.headI ∧
    (∀ j : Fin m.nCr, 0 < m.vectorNr j) ∧
    m.vectorCCr ⟨0, h0⟩ = 0 ∧ m.vectorCCr ⟨0, h0⟩ ≠ m.hr.headI / 2 := by
  have hne : m.hr ≠ [] := by
    intro h
    rw [Cyl1DMesh.nCr, h] at h0
    exact absurd h0 (by simp)
  have hhead : m.hr.getD 0 0 = m.hr.headI := by
    obtain ⟨a, l, hal⟩ := List.exists_cons_of_ne_nil hne
    rw [hal]
    simp [List.getD]
  have hheadpos : 0 < m.hr.headI := by
    rw [← hhead]
    exact hpos _ (getD_mem_of_lt h0)
  refine ⟨rfl, rfl, ?_, hheadpos, ?_, ?_, ?_⟩
  · simp only [Cyl1DMesh.vectorNr, zero_add, Finset.sum_range_one]
    exact hhead
  · intro j
    exact sum_getD_pos hpos (Nat.succ_pos _) (Nat.succ_le_of_lt j.isLt)
  · simp [Cyl1DMesh.vectorCCr]
  · intro h
    simp [Cyl1DMesh.vectorCCr] at h
    linarith

/-- Witness for `C10_counting_and_axis` at the concrete mesh
`hr = [1, 2], hz = [3], z0 = 0`. -/
theorem C10_counting_and_axis_witness :
    (0 < (⟨[1, 2], [3], 0⟩ : Cyl1DMesh).nCr) ∧
    (∀ x ∈ (⟨[1, 2], [3], 0⟩ : Cyl1DMesh).hr, 0 < x) ∧
    ((⟨[1, 2], [3], 0⟩ : Cyl1DMesh).nNr = (⟨[1, 2], [3], 0⟩ : Cyl1DMesh).nCr) := by
  refine ⟨by decide, by decide, ?_⟩
  exact (C10_counting_and_axis ⟨[1, 2], [3], 0⟩ (by decide) (by decide)).1

/-- C8: construction succeeds exactly when `h` holds two width sequences and
any supplied origin has a single entry; an omitted origin defaults to 0 (so
`vectorNz` then starts at 0), and the constructed mesh satisfies
`nCr = len(hr)` and `nCz = len(hz)`. -/
theorem C8_init_validation :
    (∀ (h : List (List ℚ)) (z0 : Option (List ℚ)),
      (∃ m, Cyl1DMesh.init h z0 = .ok m) ↔
        (h.length = 2 ∧ (z0 = none ∨ ∃ q, z0 = some [q]))) ∧
    (∀ hr hz : List ℚ, Cyl1DMesh.init [hr, hz] none = .ok ⟨hr, hz, 0⟩) ∧
    (∀ (hr hz : List ℚ) (q : ℚ),
      Cyl1DMesh.init [hr, hz] (some [q]) = .ok ⟨hr, hz, q⟩) ∧
    (∀ (h : List (List ℚ)) (z0 : Option (List ℚ)) (m : Cyl1DMesh),
      Cyl1DMesh.init h z0 = .ok m →
        m.nCr = m.hr.length ∧ m.nCz = m.hz.length) ∧
    (∀ (hr hz : List ℚ) (m : Cyl1DMesh), Cyl1DMesh.init [hr, hz] none = .ok m →
      m.vectorNz ⟨0, Nat.succ_pos _⟩ = 0) := by
  refine ⟨?_, fun hr hz => rfl, fun hr hz q => rfl, fun h z0 m _ => ⟨rfl, rfl⟩, ?_⟩
  · intro h z0
    constructor
    · rintro ⟨m, hm⟩
      rcases h with _ | ⟨a, _ | ⟨b, _ | ⟨x, t⟩⟩⟩ <;>
        simp only [Cyl1DMesh.init] at hm
      case nil => exact absurd hm (by simp)
      case cons.nil => exact absurd hm (by simp)
      case cons.cons.cons => exact absurd hm (by simp)
      refine ⟨rfl, ?_⟩
      rcases z0 with _ | z
      · exact Or.inl rfl
      · rcases z with _ | ⟨q, _ | ⟨r, s⟩⟩ <;> simp [Cyl1DMesh.init] at hm
        exact Or.inr ⟨q, rfl⟩
    · rintro ⟨hlen, hz0⟩
      obtain ⟨a, b, rfl⟩ := List.length_eq_two.mp hlen
      rcases hz0 with rfl | ⟨q, rfl⟩
      · exact ⟨⟨a, b, 0⟩, rfl⟩
      · exact ⟨⟨a, b, q⟩, rfl⟩
  · intro hr hz m hm
    have : m = ⟨hr, hz, 0⟩ := by
      simpa [Cyl1DMesh.init] using hm.symm
    subst this
    simp [Cyl1DMesh.vectorNz]

/-- Witness for `C8_init_validation`: the existence criterion applied at the
concrete input `h = [[1], [2, 3]]` with `z0` omitted. -/
theorem C8_init_validation_witness :
    ([[(1 : ℚ)], [2, 3]].length = 2 ∧
      ((none : Option (List ℚ)) = none ∨ ∃ q, (none : Option (List ℚ)) = some [q])) ∧
    (∃ m, Cyl1DMesh.init [[(1 : ℚ)], [2, 3]] none = .ok m) := by
  refine ⟨⟨rfl, Or.inl rfl⟩, ?_⟩
  exact (C8_init_validation.1 [[(1 : ℚ)], [2, 3]] none).mpr ⟨rfl, Or.inl rfl⟩

/-- Every column of the radial averaging stencil sums to 1: column 0 holds
only the boundary fix-up entry 1, and every later column holds two 0.5
entries. -/
theorem arAvg_col_sum (n : ℕ) (j : Fin n) : ∑ i, Cyl1DMesh.arAvg n i j = 1 := by
  by_cases hj : j.val = 0
  · rw [Finset.sum_eq_single j]
    · simp [Cyl1DMesh.arAvg, hj]
    · intro i _ hij
      simp only [Cyl1DMesh.arAvg, Matrix.of_apply]
      rw [if_neg, if_neg]
      · rintro (h | h)
        · exact hij (Fin.ext (by omega))
        · omega
      · rintro ⟨hi0, -⟩
        exact hij (Fin.ext (by omega))
    · intro h
      exact absurd (Finset.mem_univ j) h
  · have hj1 : j.val - 1 < n := lt_of_le_of_lt (Nat.sub_le _ _) j.isLt
    have hpt : ∀ i : Fin n, Cyl1DMesh.arAvg n i j =
        (if i = j then (1 : ℚ)/2 else 0) + (if i = ⟨j.val - 1, hj1⟩ then (1 : ℚ)/2 else 0) := by
      intro i
      simp only [Cyl1DMesh.arAvg, Matrix.of_apply, Fin.ext_iff]
      split_ifs <;> first | omega | norm_num
    rw [Finset.sum_congr rfl (fun i _ => hpt i), Finset.sum_add_distrib,
      Finset.sum_ite_eq' Finset.univ j (fun _ => (1 : ℚ)/2),
      Finset.sum_ite_eq' Finset.univ (⟨j.val - 1, hj1⟩ : Fin n) (fun _ => (1 : ℚ)/2)]
    simp
    norm_num

/-- Every column of the vertical averaging stencil sums to 1 (two 0.5
entries, at the nodes below and above the cell). -/
theorem azAvg_col_sum (n : ℕ) (j : Fin n) : ∑ i, Cyl1DMesh.azAvg n i j = 1 := by
  have hpt : ∀ i : Fin (n + 1), Cyl1DMesh.azAvg n i j =
      (if i = Fin.castSucc j then (1 : ℚ)/2 else 0) + (if i = Fin.succ j then (1 : ℚ)/2 else 0) := by
    intro i
    simp only [Cyl1DMesh.azAvg, Matrix.of_apply, Fin.ext_iff, Fin.coe_castSucc, Fin.val_succ]
    split_ifs <;> first | omega | norm_num
  rw [Finset.sum_congr rfl (fun i _ => hpt i), Finset.sum_add_distrib,
    Finset.sum_ite_eq' Finset.univ (Fin.castSucc j) (fun _ => (1 : ℚ)/2),
    Finset.sum_ite_eq' Finset.univ (Fin.succ j) (fun _ => (1 : ℚ)/2)]
  simp
  norm_num

/-- Column sums of a Kronecker product factor into the column sums of the
factors (scaled by a constant). -/
theorem kron_col_sum {m1 n1 m2 n2 : ℕ} (A : Matrix (Fin m1) (Fin n1) ℚ)
    (B : Matrix (Fin m2) (Fin n2) ℚ) (k : Fin n1) (j : Fin n2) (a b c : ℚ)
    (hA : ∑ i, A i k = a) (hB : ∑ l, B l j = b) :
    ∑ il : Fin m1 × Fin m2, Matrix.kroneckerMap (· * ·) A B il (k, j) * c = a * (b * c) := by
  simp only [Matrix.kroneckerMap_apply]
  rw [Fintype.sum_prod_type]
  have inner : ∀ i, ∑ l, A i k * B l j * c = A i k * (b * c) := by
    intro i
    rw [Finset.sum_congr rfl
      (fun l (_ : l ∈ Finset.univ) => (by ring : A i k * B l j * c = A i k * (B l j * c)))]
    rw [← Finset.mul_sum, ← Finset.sum_mul, hB]
  rw [Finset.sum_congr rfl (fun i _ => inner i), ← Finset.sum_mul, hA]

/-- Columns of an identity matrix sum to 1. -/
theorem one_col_sum (N : ℕ) (t : Fin N) : ∑ i, (1 : Matrix (Fin N) (Fin N) ℚ) i t = 1 := by
  simp [Matrix.one_apply, Finset.sum_ite_eq']

/-- C3 counterexample: on the mesh `hr=[1], hz=[1]`, applying `aveF2CC` to the
constant face vector of ones does not reproduce the constant 1 at the cell
center (the row sums to 2: one from the r-face average and one from the
z-face average), so the claimed partition-of-unity property fails for
`aveF2CC` as stated. -/
theorem C3_aveF2CC_constant_counterexample :
    ¬ ((Cyl1DMesh.aveF2CC ⟨[1], [1], 0⟩).mulVec (fun _ => (1 : ℚ)) = fun _ => 1) := by
  intro h
  have h0 := congrFun h (⟨0, by norm_num [Cyl1DMesh.nCz]⟩, ⟨0, by norm_num [Cyl1DMesh.nCr]⟩)
  simp only [Matrix.mulVec, Matrix.dotProduct, Cyl1DMesh.aveF2CC, Matrix.transpose_apply,
    Fintype.sum_sum_type, Matrix.fromRows_apply_inl, Matrix.fromRows_apply_inr,
    Cyl1DMesh.avgAfr, Cyl1DMesh.avgAfz, Matrix.kroneckerMap_apply, Cyl1DMesh.arAvg,
    Cyl1DMesh.azAvg, Matrix.one_apply, Matrix.of_apply, Fintype.sum_prod_type,
    Fin.sum_univ_succ, Fin.sum_univ_zero, Finset.univ_unique, Finset.sum_singleton,
    Cyl1DMesh.nCz, Cyl1DMesh.nCr, List.length_cons, List.length_nil] at h0
  norm_num at h0

/-- C3 (amended): applying `aveE2CC` to a constant edge vector reproduces the
constant at every cell center — every row sums to 1, the innermost radial
rows included, because the boundary fix-up entry 1 replaces what would
otherwise be a row-sum of 0.5; `aveF2CC`, however, adds an r-face average and
a z-face average (each separately a partition of unity), so it maps the
constant `c` to `2*c` at every cell center. -/
theorem C3_averaging_constants (m : Cyl1DMesh) (c : ℚ) :
    (m.aveE2CC.mulVec (fun _ => c) = fun _ => c) ∧
    (m.aveF2CC.mulVec (fun _ => c) = fun _ => 2 * c) := by
  constructor
  · funext kj
    obtain ⟨k, j⟩ := kj
    simp only [Matrix.mulVec, Matrix.dotProduct, Cyl1DMesh.aveE2CC, Matrix.transpose_apply]
    rw [kron_col_sum (Cyl1DMesh.azAvg m.nCz) (Cyl1DMesh.arAvg m.nCr) k j 1 1 c
      (azAvg_col_sum m.nCz k) (arAvg_col_sum m.nCr j)]
    ring
  · funext kj
    obtain ⟨k, j⟩ := kj
    simp only [Matrix.mulVec, Matrix.dotProduct, Cyl1DMesh.aveF2CC, Matrix.transpose_apply]
    rw [Fintype.sum_sum_type]
    simp only [Matrix.fromRows_apply_inl, Matrix.fromRows_apply_inr,
      Cyl1DMesh.avgAfr, Cyl1DMesh.avgAfz]
    rw [kron_col_sum (1 : Matrix (Fin m.nCz) (Fin m.nCz) ℚ) (Cyl1DMesh.arAvg m.nCr) k j 1 1 c
      (one_col_sum m.nCz k) (arAvg_col_sum m.nCr j)]
    rw [kron_col_sum (Cyl1DMesh.azAvg m.nCz) (1 : Matrix (Fin m.nCr) (Fin m.nCr) ℚ) k j 1 1 c
      (azAvg_col_sum m.nCz k) (one_col_sum m.nCr j)]
    ring

/-- Summing a list through `getD` over its index range gives the list sum. -/
theorem sum_range_getD_eq_sum (l : List ℚ) :
    ∑ i in Finset.range l.length, l.getD i 0 = l.sum := by
  induction l with
  | nil => simp
  | cons a t ih =>
    rw [List.length_cons, Finset.sum_range_succ', List.sum_cons, ← ih]
    simp [List.getD]
    exact add_comm _ _

/-- Partial sums of a positive list are monotone in the number of summands. -/
theorem sum_getD_mono {l : List ℚ} (hpos : ∀ x ∈ l, 0 < x) {t t' : ℕ}
    (h : t ≤ t') (h' : t' ≤ l.length) :
    ∑ i in Finset.range t, l.getD i 0 ≤ ∑ i in Finset.range t', l.getD i 0 := by
  apply Finset.sum_le_sum_of_subset_of_nonneg (Finset.range_subset.mpr h)
  intro i hi _
  have : i < l.length := lt_of_lt_of_le (Finset.mem_range.mp hi) h'
  exact le_of_lt (hpos _ (getD_mem_of_lt this))

/-- The annulus areas telescope: their total is `pi` times the square of the
outermost node radius. -/
theorem annulusAz_total (pi : ℚ) (m : Cyl1DMesh) :
    ∑ j, Cyl1DMesh.annulusAz pi m j
      = pi * (∑ i in Finset.range m.nCr, m.hr.getD i 0) ^ 2 := by
  simp only [Cyl1DMesh.annulusAz, Cyl1DMesh.vectorNr, Cyl1DMesh.innerNr]
  rw [Fin.sum_univ_eq_sum_range
    (fun t => pi * ((∑ i in Finset.range (t + 1), m.hr.getD i 0) ^ 2
      - (∑ i in Finset.range t, m.hr.getD i 0) ^ 2)) m.nCr]
  rw [← Finset.mul_sum,
    Finset.sum_range_sub (fun t => (∑ i in Finset.range t, m.hr.getD i 0) ^ 2) m.nCr]
  simp

/-- C6: for every mesh the node and face counts decompose as products/sums of
the per-direction counts; with positive widths all face areas and volumes are
strictly positive and the volumes total `pi * max(vectorNr)^2 * sum(hz)`; on
the concrete mesh `hr=[1,1,1], hz=[2,2], z0=0` the counts are
`nCr=3, nCz=2, nC=6, nNr=3, nNz=3, nN=9` and the volume totals `36*pi`. -/
theorem C6_mesh_invariants :
    (∀ m : Cyl1DMesh, m.nN = m.nNr * m.nNz ∧ m.nF = m.nFr + m.nFz) ∧
    (∀ (pi : ℚ) (m : Cyl1DMesh), 0 < pi → (∀ x ∈ m.hr, 0 < x) → (∀ x ∈ m.hz, 0 < x) →
      (∀ f, 0 < m.area pi f) ∧ (∀ kj, 0 < m.vol pi kj)) ∧
    (∀ (pi : ℚ) (m : Cyl1DMesh), 0 < m.nCr → (∀ x ∈ m.hr, 0 < x) →
      ∃ M : ℚ, (∀ j, m.vectorNr j ≤ M) ∧ (∃ j, m.vectorNr j = M) ∧
        ∑ kj, m.vol pi kj = pi * M ^ 2 * m.hz.sum) ∧
    (∀ pi : ℚ,
      (⟨[1,1,1], [2,2], 0⟩ : Cyl1DMesh).nCr = 3 ∧
      (⟨[1,1,1], [2,2], 0⟩ : Cyl1DMesh).nCz = 2 ∧
      (⟨[1,1,1], [2,2], 0⟩ : Cyl1DMesh).nC = 6 ∧
      (⟨[1,1,1], [2,2], 0⟩ : Cyl1DMesh).nNr = 3 ∧
      (⟨[1,1,1], [2,2], 0⟩ : Cyl1DMesh).nNz = 3 ∧
      (⟨[1,1,1], [2,2], 0⟩ : Cyl1DMesh).nN = 9 ∧
      ∑ kj, (⟨[1,1,1], [2,2], 0⟩ : Cyl1DMesh).vol pi kj = 36 * pi) := by
  have hann : ∀ (pi : ℚ) (m : Cyl1DMesh), 0 < pi → (∀ x ∈ m.hr, 0 < x) →
      ∀ j : Fin m.nCr, 0 < Cyl1DMesh.annulusAz pi m j := by
    intro pi m hpi hr j
    have hstep : m.vectorNr j = m.innerNr j + m.hr.getD j.val 0 :=
      Finset.sum_range_succ _ _
    have hj : (j.val : ℕ) < m.hr.length := j.isLt
    have hpos : 0 < m.hr.getD j.val 0 := hr _ (getD_mem_of_lt hj)
    have hnn : 0 ≤ m.innerNr j := by
      have := sum_getD_mono hr (Nat.zero_le j.val) (le_of_lt hj)
      simpa [Cyl1DMesh.innerNr] using this
    have hlt : m.innerNr j < m.vectorNr j := by rw [hstep]; linarith
    have hsq : m.innerNr j ^ 2 < m.vectorNr j ^ 2 :=
      pow_lt_pow_left₀ hlt hnn (by norm_num)
    have : 0 < m.vectorNr j ^ 2 - m.innerNr j ^ 2 := by linarith
    exact mul_pos hpi this
  refine ⟨fun m => ⟨rfl, rfl⟩, ?_, ?_, ?_⟩
  · intro pi m hpi hr hz
    constructor
    · rintro (⟨k, j⟩ | ⟨k, j⟩)
      · have hk : (k.val : ℕ) < m.hz.length := k.isLt
        have h1 : 0 < m.hz.getD k.val 0 := hz _ (getD_mem_of_lt hk)
        have h2 : 0 < m.vectorNr j :=
          sum_getD_pos hr (Nat.succ_pos _) (Nat.succ_le_of_lt j.isLt)
        have : 0 < 2 * pi * m.vectorNr j := by positivity
        exact mul_pos h1 this
      · exact hann pi m hpi hr j
    · rintro ⟨k, j⟩
      have hk : (k.val : ℕ) < m.hz.length := k.isLt
      have h1 : 0 < m.hz.getD k.val 0 := hz _ (getD_mem_of_lt hk)
      exact mul_pos h1 (hann pi m hpi hr j)
  · intro pi m h0 hr
    refine ⟨∑ i in Finset.range m.nCr, m.hr.getD i 0, ?_, ?_, ?_⟩
    · intro j
      exact sum_getD_mono hr (Nat.succ_le_of_lt j.isLt) le_rfl
    · refine ⟨⟨m.nCr - 1, by omega⟩, ?_⟩
      show (∑ i in Finset.range ((m.nCr - 1) + 1), m.hr.getD i 0) = _
      have h1 : m.nCr - 1 + 1 = m.nCr := by omega
      rw [h1]
    · have hfactor : ∑ kj, m.vol pi kj
          = (∑ k : Fin m.nCz, m.hz.getD k.val 0) * (∑ j, Cyl1DMesh.annulusAz pi m j) := by
        rw [Fintype.sum_prod_type, Finset.sum_mul]
        refine Finset.sum_congr rfl fun k _ => ?_
        rw [Finset.mul_sum]
        rfl
      have hzsum : (∑ k : Fin m.nCz, m.hz.getD k.val 0) = m.hz.sum := by
        rw [Fin.sum_univ_eq_sum_range (fun t => m.hz.getD t 0) m.nCz]
        exact sum_range_getD_eq_sum m.hz
      rw [hfactor, annulusAz_total, hzsum]
      ring
  · intro pi
    refine ⟨rfl, rfl, rfl, rfl, rfl, rfl, ?_⟩
    rw [Fintype.sum_prod_type]
    simp [Cyl1DMesh.vol, Cyl1DMesh.annulusAz, Cyl1DMesh.vectorNr, Cyl1DMesh.innerNr,
      Cyl1DMesh.nCz, Cyl1DMesh.nCr, Fin.sum_univ_succ, Finset.sum_range_succ, List.getD]
    ring

/-- Witness for `C6_mesh_invariants`: positivity of all volumes at `pi = 1`
on the concrete scenario mesh. -/
theorem C6_mesh_invariants_witness :
    ((0 : ℚ) < 1 ∧ (∀ x ∈ ([1, 1, 1] : List ℚ), 0 < x) ∧
      (∀ x ∈ ([2, 2] : List ℚ), 0 < x)) ∧
    (∀ kj, 0 < (⟨[1, 1, 1], [2, 2], 0⟩ : Cyl1DMesh).vol 1 kj) := by
  refine ⟨⟨by norm_num, by norm_num, by norm_num⟩, ?_⟩
  exact (C6_mesh_invariants.2.1 1 ⟨[1, 1, 1], [2, 2], 0⟩ (by norm_num) (by norm_num)
    (by norm_num)).2

/-- C5: `getMass` returns the diagonal `Av.T * (vol * materialProp)` with
`Av = aveE2CC` for `loc='e'` and `Av = aveF2CC` for `loc='f'`; an omitted
`materialProp` acts as the uniform scalar 1, a scalar is broadcast to all
cells, a size-`nC` array is used per cell, a size-`nCz` array is broadcast
across the `nCr` radial cells of each layer, any other size fails the shape
assert, and any other `loc` fails with `ValueError`. -/
theorem C5_getMass_contract :
    (∀ (pi : ℚ) (m : Cyl1DMesh) (loc : String),
      Cyl1DMesh.getMass pi m .omitted loc = Cyl1DMesh.getMass pi m (.scalar 1) loc) ∧
    (∀ (pi : ℚ) (m : Cyl1DMesh) (q : ℚ),
      Cyl1DMesh.getMass pi m (.scalar q) "e"
        = .ok (.inl (m.aveE2CC.transpose.mulVec (Cyl1DMesh.vol pi m * fun _ => q))) ∧
      Cyl1DMesh.getMass pi m (.scalar q) "f"
        = .ok (.inr (m.aveF2CC.transpose.mulVec (Cyl1DMesh.vol pi m * fun _ => q)))) ∧
    (∀ (pi : ℚ) (m : Cyl1DMesh) (l : List ℚ), l.length = m.nC →
      Cyl1DMesh.getMass pi m (.arr l) "e"
        = .ok (.inl (m.aveE2CC.transpose.mulVec
            (Cyl1DMesh.vol pi m * fun kj => l.getD (kj.1.val * m.nCr + kj.2.val) 0))) ∧
      Cyl1DMesh.getMass pi m (.arr l) "f"
        = .ok (.inr (m.aveF2CC.transpose.mulVec
            (Cyl1DMesh.vol pi m * fun kj => l.getD (kj.1.val * m.nCr + kj.2.val) 0)))) ∧
    (∀ (pi : ℚ) (m : Cyl1DMesh) (l : List ℚ), l.length = m.nCz →
      Cyl1DMesh.getMass pi m (.arr l) "e"
        = .ok (.inl (m.aveE2CC.transpose.mulVec
            (Cyl1DMesh.vol pi m * fun kj => l.getD kj.1.val 0))) ∧
      Cyl1DMesh.getMass pi m (.arr l) "f"
        = .ok (.inr (m.aveF2CC.transpose.mulVec
            (Cyl1DMesh.vol pi m * fun kj => l.getD kj.1.val 0)))) ∧
    (∀ (pi : ℚ) (m : Cyl1DMesh) (l : List ℚ) (loc : String),
      l.length ≠ m.nC → l.length ≠ m.nCz →
      Cyl1DMesh.getMass pi m (.arr l) loc = .error "materialProp incorrect shape") ∧
    (∀ (pi : ℚ) (m : Cyl1DMesh) (q : ℚ) (loc : String), loc ≠ "e" → loc ≠ "f" →
      Cyl1DMesh.getMass pi m (.scalar q) loc = .error "Invalid loc") := by
  have hbcast : ∀ (m : Cyl1DMesh) (l : List ℚ), l.length = m.nC →
      Cyl1DMesh.broadcastProp m (.arr l)
        = .ok (fun kj => l.getD (kj.1.val * m.nCr + kj.2.val) 0) := by
    intro m l hlen
    by_cases hcz : l.length = m.nCz
    · have hpt : (fun kj : Fin m.nCz × Fin m.nCr => l.getD kj.1.val 0)
          = fun kj => l.getD (kj.1.val * m.nCr + kj.2.val) 0 := by
        funext kj
        obtain ⟨k, j⟩ := kj
        have hczpos : 0 < m.nCz := k.pos
        have h2 : m.nCr * m.nCz = m.nCz := (hlen.symm.trans hcz : m.nC = m.nCz)
        have h3 : (m.nCr - 1) * m.nCz = 0 := by
          rw [Nat.sub_mul, h2]
          omega
        have h4 : m.nCr = 1 := by
          rcases Nat.mul_eq_zero.mp h3 with h | h
          · have := j.pos
            omega
          · omega
        have h5 : j.val = 0 := by have := j.isLt; omega
        have h6 : k.val * m.nCr + j.val = k.val := by
          have h7 : k.val * m.nCr = k.val := by rw [h4, Nat.mul_one]
          omega
        exact congrArg (fun t => l.getD t 0) h6.symm
      simp only [Cyl1DMesh.broadcastProp, if_pos hcz, hpt]
    · simp only [Cyl1DMesh.broadcastProp, if_neg hcz, if_pos hlen]
  refine ⟨fun pi m loc => rfl, fun pi m q => ⟨rfl, rfl⟩, ?_, ?_, ?_, ?_⟩
  · intro pi m l hlen
    constructor <;> simp only [Cyl1DMesh.getMass, hbcast m l hlen] <;> rfl
  · intro pi m l hlen
    constructor <;>
      simp only [Cyl1DMesh.getMass, Cyl1DMesh.broadcastProp, if_pos hlen] <;> rfl
  · intro pi m l loc h1 h2
    simp only [Cyl1DMesh.getMass, Cyl1DMesh.broadcastProp, if_neg h2, if_neg h1]
    rfl
  · intro pi m q loc h1 h2
    simp only [Cyl1DMesh.getMass, Cyl1DMesh.broadcastProp, if_neg h1, if_neg h2]
    rfl

/-- Witness for `C5_getMass_contract`: the layered-earth broadcast applied on
the mesh `hr=[1,1], hz=[5]` with the one-layer property array `[3]`. -/
theorem C5_getMass_contract_witness :
    (([3] : List ℚ).length = (⟨[1, 1], [5], 0⟩ : Cyl1DMesh).nCz) ∧
    Cyl1DMesh.getMass 1 ⟨[1, 1], [5], 0⟩ (.arr [3]) "e"
      = .ok (.inl ((⟨[1, 1], [5], 0⟩ : Cyl1DMesh).aveE2CC.transpose.mulVec
          (Cyl1DMesh.vol 1 ⟨[1, 1], [5], 0⟩ * fun kj => ([3] : List ℚ).getD kj.1.val 0))) := by
  refine ⟨rfl, ?_⟩
  exact (C5_getMass_contract.2.2.2.1 1 ⟨[1, 1], [5], 0⟩ [3] rfl).1

/-- Synthetic evaluation context for the C4 scenario: interpolated values
`e_px = 1` (via `Pex`) and `hx_py = 1` (via `Pbx` on `b_py` with `mu = 1`),
all other cross terms zero. -/
def C4ctx : NSEMCtx 1 1 1 1 where
  mu := 1
  Pex := Matrix.of fun _ _ => 1
  Pey := Matrix.of fun _ _ => 0
  Pbx := Matrix.of fun _ _ => 1
  Pby := Matrix.of fun _ _ => 0
  Pbz := Matrix.of fun _ _ => 0
  Pbx_num := Matrix.of fun _ _ => 0
  Pby_num := Matrix.of fun _ _ => 0
  e_px := fun _ => 1
  e_py := fun _ => 0
  b_px := fun _ => 0
  b_py := fun _ => 1
  e_pxDeriv := Matrix.of fun _ _ => 0
  e_pyDeriv := Matrix.of fun _ _ => 0
  b_pxDeriv := Matrix.of fun _ _ => 0
  b_pyDeriv := Matrix.of fun _ _ => 0

/-- C4: `Point_impedance3D.eval(..., return_complex=True)` returns
`Hd * Zij` with the fixed orientation-specific signed combination of the
interpolated cross terms; on the synthetic configuration with
`e_px = hx_py = 1` and all other cross terms zero, `Zij` for orientation
`'xy'` reduces to its single surviving term `-e_px*hx_py = -1`, matching the
documented sign. -/
theorem C4_imped3D_eval_formula :
    (∀ {nD nE nF nU : ℕ} (c : NSEMCtx nD nE nF nU),
      c.imped3D_evalC .xx = .ok (c.Hd * (c.ex_px * c.hy_py - c.ex_py * c.hy_px)) ∧
      c.imped3D_evalC .xy = .ok (c.Hd * (-c.ex_px * c.hx_py + c.ex_py * c.hx_px)) ∧
      c.imped3D_evalC .yx = .ok (c.Hd * (c.ey_px * c.hy_py - c.ey_py * c.hy_px)) ∧
      c.imped3D_evalC .yy = .ok (c.Hd * (-c.ey_px * c.hx_py + c.ey_py * c.hx_px))) ∧
    C4ctx.ex_px = (fun _ => 1) ∧ C4ctx.hx_py = (fun _ => 1) ∧
    C4ctx.ex_py = (fun _ => 0) ∧ C4ctx.hx_px = (fun _ => 0) ∧
    C4ctx.imped3D_Zij .xy = .ok (fun _ => -1) := by
  have hexpx : C4ctx.ex_px = fun _ => 1 := by
    funext i
    simp [NSEMCtx.ex_px, C4ctx, Matrix.mulVec, Matrix.dotProduct]
  have hhxpy : C4ctx.hx_py = fun _ => 1 := by
    funext i
    simp [NSEMCtx.hx_py, C4ctx, Matrix.mulVec, Matrix.dotProduct, vdivQ, Cq.divQ]
  have hexpy : C4ctx.ex_py = fun _ => 0 := by
    funext i
    simp [NSEMCtx.ex_py, C4ctx, Matrix.mulVec, Matrix.dotProduct]
  have hhxpx : C4ctx.hx_px = fun _ => 0 := by
    funext i
    simp [NSEMCtx.hx_px, C4ctx, Matrix.mulVec, Matrix.dotProduct, vdivQ, Cq.divQ]
  refine ⟨fun c => ⟨rfl, rfl, rfl, rfl⟩, hexpx, hhxpy, hexpy, hhxpx, ?_⟩
  simp only [NSEMCtx.imped3D_Zij, hexpx, hhxpy, hexpy, hhxpx]
  congr 1
  funext i
  show -(fun _ : Fin 1 => (1 : Cq)) i * (fun _ : Fin 1 => (1 : Cq)) i
      + (fun _ : Fin 1 => (0 : Cq)) i * (fun _ : Fin 1 => (0 : Cq)) i = -1
  ring

/-- C2: the forward mode of every receiver's `evalDeriv` returns the
requested component of the quotient-rule expression
`Hd * (numerator_deriv - diag(ratio) * Hd_uV(v))`, where the ratio is the
complex value computed by `eval` — and for the horizontal-magnetic-transfer
variant the ratio used is the pre-correction value `Hd * Mij` (the code adds
the Schmucker correction back onto the eval value before applying the
quotient rule). -/
theorem C2_forward_quotient_rule :
    (∀ {nD nE nF nU : ℕ} (c : NSEMCtx nD nE nF nU) (o : RxOrient) (comp : RxComp)
      (v : Fin nU → Cq) (zn r : Fin nD → Cq),
      c.imped3D_ZijN_uV o v = .ok zn → c.imped3D_evalC o = .ok r →
      c.imped3D_evalDeriv_fwd o comp v
        = .ok (compExtract comp (c.Hd * (zn - r * c.Hd_uV v)))) ∧
    (∀ {nD nE nF nU : ℕ} (c : NSEMCtx nD nE nF nU) (o : RxOrient) (comp : RxComp)
      (v : Fin nU → Cq) (tn r : Fin nD → Cq),
      c.tipper3D_TijN_uV o v = .ok tn → c.tipper3D_evalC o = .ok r →
      c.tipper3D_evalDeriv_fwd o comp v
        = .ok (compExtract comp (c.Hd * (tn - r * c.Hd_uV v)))) ∧
    (∀ {nD nE nF nU : ℕ} (c : NSEMCtx nD nE nF nU) (o : RxOrient) (comp : RxComp)
      (v : Fin nU → Cq) (mn mijRaw : Fin nD → Cq),
      c.hmv_MijN_uV o v = .ok mn → c.hmv_Mij o = .ok mijRaw →
      c.hmv_evalDeriv_fwd o comp v
        = .ok (compExtract comp (c.Hd * (mn - (c.Hd * mijRaw) * c.Hd_uV v)))) ∧
    (∀ {nD nP nQ nU : ℕ} (c : NSEM1DCtx nD nP nQ nU) (comp : RxComp) (v : Fin nU → Cq),
      c.evalDeriv_fwd comp v
        = compExtract comp (c.Hd * (-c.ex_u v - c.evalC * c.hx_u v))) := by
  refine ⟨?_, ?_, ?_, fun c comp v => rfl⟩
  · intro nD nE nF nU c o comp v zn r h1 h2
    simp only [NSEMCtx.imped3D_evalDeriv_fwd, h1, h2]
    rfl
  · intro nD nE nF nU c o comp v tn r h1 h2
    simp only [NSEMCtx.tipper3D_evalDeriv_fwd, h1, h2]
    rfl
  · intro nD nE nF nU c o comp v mn mijRaw h1 h2
    have hec : c.hmv_evalC o = .ok (fun i => (c.Hd * mijRaw) i - NSEMCtx.hmv_corr o) := by
      simp only [NSEMCtx.hmv_evalC, h2]
      rfl
    simp only [NSEMCtx.hmv_evalDeriv_fwd, h1, hec]
    have hmij : (fun i => ((c.Hd * mijRaw) i - NSEMCtx.hmv_corr o) + NSEMCtx.hmv_corr o)
        = c.Hd * mijRaw := by
      funext i
      ring
    show Except.ok (compExtract comp (c.Hd * (mn -
        (fun i => ((c.Hd * mijRaw) i - NSEMCtx.hmv_corr o) + NSEMCtx.hmv_corr o) * c.Hd_uV v)))
      = _
    rw [hmij]

/-- All-zero evaluation context used to instantiate witnesses. -/
def C0ctx : NSEMCtx 1 1 1 1 where
  mu := 1
  Pex := Matrix.of fun _ _ => 0
  Pey := Matrix.of fun _ _ => 0
  Pbx := Matrix.of fun _ _ => 0
  Pby := Matrix.of fun _ _ => 0
  Pbz := Matrix.of fun _ _ => 0
  Pbx_num := Matrix.of fun _ _ => 0
  Pby_num := Matrix.of fun _ _ => 0
  e_px := fun _ => 0
  e_py := fun _ => 0
  b_px := fun _ => 0
  b_py := fun _ => 0
  e_pxDeriv := Matrix.of fun _ _ => 0
  e_pyDeriv := Matrix.of fun _ _ => 0
  b_pxDeriv := Matrix.of fun _ _ => 0
  b_pyDeriv := Matrix.of fun _ _ => 0

/-- On the all-zero context every interpolated field value and derivative
component is the zero vector. -/
theorem C0ctx_fields_zero :
    C0ctx.hx_num_px = (fun _ => 0) ∧ C0ctx.hx_num_py = (fun _ => 0) ∧
    C0ctx.hy_py = (fun _ => 0) ∧ C0ctx.hy_px = (fun _ => 0) ∧
    (∀ v, C0ctx.hx_num_px_u v = fun _ => 0) ∧ (∀ v, C0ctx.hx_num_py_u v = fun _ => 0) ∧
    (∀ v, C0ctx.hy_py_u v = fun _ => 0) ∧ (∀ v, C0ctx.hy_px_u v = fun _ => 0) := by
  refine ⟨?_, ?_, ?_, ?_, ?_, ?_, ?_, ?_⟩ <;>
    first
    | (funext i
       simp [C0ctx, NSEMCtx.hx_num_px, NSEMCtx.hx_num_py, NSEMCtx.hy_py, NSEMCtx.hy_px,
         vdivQ, Cq.divQ, Matrix.mulVec, Matrix.dotProduct])
    | (intro v
       funext i
       simp [C0ctx, NSEMCtx.hx_num_px_u, NSEMCtx.hx_num_py_u, NSEMCtx.hy_py_u,
         NSEMCtx.hy_px_u, vdivQ, Cq.divQ, Matrix.mulVec, Matrix.dotProduct])

/-- Witness for `C2_forward_quotient_rule`: the horizontal-magnetic-transfer
conjunct applied on the all-zero context at orientation `'xx'`. -/
theorem C2_forward_quotient_rule_witness :
    (C0ctx.hmv_MijN_uV .xx (fun _ => 0) = .ok (fun _ => 0)) ∧
    (C0ctx.hmv_Mij .xx = .ok (fun _ => 0)) ∧
    C0ctx.hmv_evalDeriv_fwd .xx .real (fun _ => 0)
      = .ok (compExtract .real (C0ctx.Hd *
          ((fun _ => 0) - (C0ctx.Hd * fun _ => 0) * C0ctx.Hd_uV (fun _ => 0)))) := by
  obtain ⟨h1, h2, h3, h4, h5, h6, h7, h8⟩ := C0ctx_fields_zero
  have hmn : C0ctx.hmv_MijN_uV .xx (fun _ => 0) = .ok (fun _ => 0) := by
    simp only [NSEMCtx.hmv_MijN_uV, h1, h2, h3, h4, h5, h6, h7, h8]
    congr 1
    funext i
    show (0 : Cq) * 0 + 0 * 0 - 0 * 0 - 0 * 0 = 0
    ring
  have hmij : C0ctx.hmv_Mij .xx = .ok (fun _ => 0) := by
    simp only [NSEMCtx.hmv_Mij, h1, h2, h3, h4]
    congr 1
    funext i
    show (0 : Cq) * 0 - 0 * 0 = 0
    ring
  exact ⟨hmn, hmij, C2_forward_quotient_rule.2.2.1 C0ctx .xx .real (fun _ => 0)
    (fun _ => 0) (fun _ => 0) hmn hmij⟩

/-- C9: an orientation accepted by the shared base class but absent from a
variant's formula table leaves the ratio local unassigned, and `eval` /
`evalDeriv` fail with an uninitialized-local error (modelled as the
`"UnboundLocalError"` error value) instead of returning a value or raising a
descriptive invalid-orientation error: `'zx'`/`'zy'` on the 3D impedance and
horizontal-magnetic-transfer receivers, and `'xx'`/`'xy'`/`'yx'`/`'yy'` on
the 3D tipper receiver. -/
theorem C9_invalid_orientation_unbound_local :
    ∀ {nD nE nF nU : ℕ} (c : NSEMCtx nD nE nF nU) (comp : RxComp) (v : Fin nU → Cq)
      (w : Fin nD → Cq),
      (c.imped3D_eval .zx comp = .error "UnboundLocalError" ∧
       c.imped3D_eval .zy comp = .error "UnboundLocalError" ∧
       c.imped3D_evalDeriv_fwd .zx comp v = .error "UnboundLocalError" ∧
       c.imped3D_evalDeriv_fwd .zy comp v = .error "UnboundLocalError" ∧
       c.imped3D_evalDeriv_adjFlat .zx w = .error "UnboundLocalError" ∧
       c.imped3D_evalDeriv_adjFlat .zy w = .error "UnboundLocalError") ∧
      (c.tipper3D_eval .xx comp = .error "UnboundLocalError" ∧
       c.tipper3D_eval .xy comp = .error "UnboundLocalError" ∧
       c.tipper3D_eval .yx comp = .error "UnboundLocalError" ∧
       c.tipper3D_eval .yy comp = .error "UnboundLocalError" ∧
       c.tipper3D_evalDeriv_fwd .xx comp v = .error "UnboundLocalError" ∧
       c.tipper3D_evalDeriv_fwd .xy comp v = .error "UnboundLocalError" ∧
       c.tipper3D_evalDeriv_fwd .yx comp v = .error "UnboundLocalError" ∧
       c.tipper3D_evalDeriv_fwd .yy comp v = .error "UnboundLocalError" ∧
       c.tipper3D_evalDeriv_adjFlat .xx w = .error "UnboundLocalError" ∧
       c.tipper3D_evalDeriv_adjFlat .xy w = .error "UnboundLocalError" ∧
       c.tipper3D_evalDeriv_adjFlat .yx w = .error "UnboundLocalError" ∧
       c.tipper3D_evalDeriv_adjFlat .yy w = .error "UnboundLocalError") ∧
      (c.hmv_eval .zx comp = .error "UnboundLocalError" ∧
       c.hmv_eval .zy comp = .error "UnboundLocalError" ∧
       c.hmv_evalDeriv_fwd .zx comp v = .error "UnboundLocalError" ∧
       c.hmv_evalDeriv_fwd .zy comp v = .error "UnboundLocalError" ∧
       c.hmv_evalDeriv_adjFlat .zx w = .error "UnboundLocalError" ∧
       c.hmv_evalDeriv_adjFlat .zy w = .error "UnboundLocalError") := by
  intro nD nE nF nU c comp v w
  exact ⟨⟨rfl, rfl, rfl, rfl, rfl, rfl⟩,
    ⟨rfl, rfl, rfl, rfl, rfl, rfl, rfl, rfl, rfl, rfl, rfl, rfl⟩,
    ⟨rfl, rfl, rfl, rfl, rfl, rfl⟩⟩

/-- C7 (amended): for the three 3D receiver variants the adjoint result is
the flat solution-space vector reshaped to `(mesh.nE, 2)`, separating the
two polarizations, and the imag component is exactly `1j` times the
real-path result; the 1D impedance variant applies no reshape — its adjoint
result is the unreshaped model-space vector — but its imag component is
likewise `1j` times the real path. -/
theorem C7_adjoint_reshape_and_imag :
    (∀ {nD nE nF : ℕ} (c : NSEMCtx nD nE nF (2 * nE)) (o : RxOrient) (v : Fin nD → Cq)
      (w : Fin (2 * nE) → Cq),
      (c.imped3D_evalDeriv_adjFlat o v = .ok w →
        c.imped3D_evalDeriv_adj o .real v = .ok (NSEMCtx.reshape2T nE w) ∧
        c.imped3D_evalDeriv_adj o .imag v = .ok (fun e p => Cq.I * NSEMCtx.reshape2T nE w e p)) ∧
      (c.tipper3D_evalDeriv_adjFlat o v = .ok w →
        c.tipper3D_evalDeriv_adj o .real v = .ok (NSEMCtx.reshape2T nE w) ∧
        c.tipper3D_evalDeriv_adj o .imag v = .ok (fun e p => Cq.I * NSEMCtx.reshape2T nE w e p)) ∧
      (c.hmv_evalDeriv_adjFlat o v = .ok w →
        c.hmv_evalDeriv_adj o .real v = .ok (NSEMCtx.reshape2T nE w) ∧
        c.hmv_evalDeriv_adj o .imag v = .ok (fun e p => Cq.I * NSEMCtx.reshape2T nE w e p))) ∧
    (∀ {nD nP nQ nU : ℕ} (c : NSEM1DCtx nD nP nQ nU) (v : Fin nD → Cq),
      c.evalDeriv_adj .imag v = (fun i => Cq.I * c.evalDeriv_adj .real v i) ∧
      c.evalDeriv_adj .real v
        = -c.aex_u (c.Hd * v) - c.ahx_u (c.evalC * (c.Hd * v))) := by
  refine ⟨?_, fun c v => ⟨rfl, rfl⟩⟩
  intro nD nE nF c o v w
  refine ⟨fun h => ⟨?_, ?_⟩, fun h => ⟨?_, ?_⟩, fun h => ⟨?_, ?_⟩⟩ <;>
    simp only [NSEMCtx.imped3D_evalDeriv_adj, NSEMCtx.tipper3D_evalDeriv_adj,
      NSEMCtx.hmv_evalDeriv_adj, h] <;> rfl

/-- All-zero 1D impedance context with two solution degrees of freedom. -/
def C71ctx : NSEM1DCtx 1 1 1 2 where
  mu := 1
  Pex := Matrix.of fun _ _ => 0
  Pbx := Matrix.of fun _ _ => 0
  e_1d := fun _ => 0
  b_1d := fun _ => 0
  eDeriv := Matrix.of fun _ _ => 0
  bDeriv := Matrix.of fun _ _ => 0

/-- C7 counterexample: the 1D impedance receiver's adjoint `evalDeriv`
returns the unreshaped model-space vector — here `nU = 2` entries — whereas
the claim's `(field degrees of freedom) × 2` two-polarization array would
hold `2 * 2` entries; no reshape is applied on the 1D path. -/
theorem C7_1d_no_reshape_counterexample :
    (List.ofFn (NSEM1DCtx.evalDeriv_adj C71ctx .real (fun _ => 0))).length = 2 ∧
    (List.ofFn (NSEM1DCtx.evalDeriv_adj C71ctx .real (fun _ => 0))).length ≠ 2 * 2 := by
  constructor
  · simp
  · simp

/-- All-zero 3D context with `nU = 2 * nE`. -/
def C7ctx0 : NSEMCtx 1 1 1 (2 * 1) where
  mu := 1
  Pex := Matrix.of fun _ _ => 0
  Pey := Matrix.of fun _ _ => 0
  Pbx := Matrix.of fun _ _ => 0
  Pby := Matrix.of fun _ _ => 0
  Pbz := Matrix.of fun _ _ => 0
  Pbx_num := Matrix.of fun _ _ => 0
  Pby_num := Matrix.of fun _ _ => 0
  e_px := fun _ => 0
  e_py := fun _ => 0
  b_px := fun _ => 0
  b_py := fun _ => 0
  e_pxDeriv := Matrix.of fun _ _ => 0
  e_pyDeriv := Matrix.of fun _ _ => 0
  b_pxDeriv := Matrix.of fun _ _ => 0
  b_pyDeriv := Matrix.of fun _ _ => 0

/-- The flat adjoint result of the 3D impedance receiver on `C7ctx0` at
orientation `'xy'`. -/
def C7w : Fin (2 * 1) → Cq :=
  (C7ctx0.imped3D_evalDeriv_adjFlat .xy (fun _ => 0)).toOption.getD (fun _ => 0)

/-- Witness for `C7_adjoint_reshape_and_imag`: the 3D impedance conjunct
applied on `C7ctx0` at orientation `'xy'`. -/
theorem C7_adjoint_reshape_and_imag_witness :
    (C7ctx0.imped3D_evalDeriv_adjFlat .xy (fun _ => 0) = .ok C7w) ∧
    (C7ctx0.imped3D_evalDeriv_adj .xy .real (fun _ => 0) = .ok (NSEMCtx.reshape2T 1 C7w) ∧
     C7ctx0.imped3D_evalDeriv_adj .xy .imag (fun _ => 0)
       = .ok (fun e p => Cq.I * NSEMCtx.reshape2T 1 C7w e p)) := by
  have h : C7ctx0.imped3D_evalDeriv_adjFlat .xy (fun _ => 0) = .ok C7w := rfl
  exact ⟨h, (C7_adjoint_reshape_and_imag.1 C7ctx0 .xy (fun _ => 0) C7w).1 h⟩

/-- Additional projection simp lemmas for computing with `Cq` literals. -/
@[simp] theorem Cq.sub_re (a b : Cq) : (a - b).re = a.re - b.re := by
  rw [sub_eq_add_neg, sub_eq_add_neg]
  rfl

@[simp] theorem Cq.sub_im (a b : Cq) : (a - b).im = a.im - b.im := by
  rw [sub_eq_add_neg, sub_eq_add_neg]
  rfl

@[simp] theorem Cq.inv_re (a : Cq) : (a⁻¹).re = a.re / (a.re ^ 2 + a.im ^ 2) := rfl

@[simp] theorem Cq.inv_im (a : Cq) : (a⁻¹).im = -a.im / (a.re ^ 2 + a.im ^ 2) := rfl

@[simp] theorem Cq.divQ_re (a : Cq) (q : ℚ) : (a.divQ q).re = a.re / q := rfl

@[simp] theorem Cq.divQ_im (a : Cq) (q : ℚ) : (a.divQ q).im = a.im / q := rfl

@[simp] theorem Cq.ofQ_re (q : ℚ) : (Cq.ofQ q).re = q := rfl

@[simp] theorem Cq.ofQ_im (q : ℚ) : (Cq.ofQ q).im = 0 := rfl

/-- The exact transpose of `_Hd_uV` — what `_aHd_uV` would have to compute
for the adjoint identity of spec §8 to hold.  It differs from the source's
`_aHd_uV` only in the second term: `_ahy_py_u(sdiag(_ahx_px) * x)` in place
of the source's repeated `_ahx_px_u(sdiag(_ahy_py) * x)`. -/
def NSEMCtx.aHd_uV_fixed {nD nE nF nU : ℕ} (c : NSEMCtx nD nE nF nU)
    (x : Fin nD → Cq) : Fin nU → Cq :=
  c.ahx_px_u (c.ahy_py * x) + c.ahy_py_u (c.ahx_px * x)
    - c.ahy_px_u (c.ahx_py * x) - c.ahx_py_u (c.ahy_px * x)

/-- Concrete evaluation context for the adjoint-identity check of the 3D
impedance receiver: one receiver location, one edge and two face degrees of
freedom, `nU = 2*nE` solution degrees of freedom, `mu_0 = 1`, real-valued
fields, and field-derivative operators that are exact forward/adjoint
(transpose) pairs by construction. -/
def C1ctx : NSEMCtx 1 1 2 (2 * 1) where
  mu := 1
  Pex := Matrix.of fun _ _ => 1
  Pey := Matrix.of fun _ _ => 0
  Pbx := Matrix.of fun _ j => if j.val = 0 then 1 else 0
  Pby := Matrix.of fun _ j => if j.val = 0 then 0 else 1
  Pbz := Matrix.of fun _ _ => 0
  Pbx_num := Matrix.of fun _ _ => 0
  Pby_num := Matrix.of fun _ _ => 0
  e_px := fun _ => Cq.ofQ 4
  e_py := fun _ => Cq.ofQ 5
  b_px := fun j => if j.val = 0 then Cq.ofQ 2 else 0
  b_py := fun j => if j.val = 0 then 0 else Cq.ofQ 3
  e_pxDeriv := Matrix.of fun _ j => if j.val = 0 then 1 else 0
  e_pyDeriv := Matrix.of fun _ j => if j.val = 0 then 0 else 1
  b_pxDeriv := Matrix.of fun i j =>
    if i.val = 0 then (if j.val = 0 then 1 else Cq.ofQ 2) else (if j.val = 0 then 0 else 1)
  b_pyDeriv := Matrix.of fun i j =>
    if i.val = 0 then (if j.val = 0 then Cq.ofQ 5 else Cq.ofQ 7) else (if j.val = 0 then 1 else 0)

/-- Forward-mode result of `evalDeriv` on `C1ctx` (orientation `'xy'`,
component `'real'`, model perturbation of ones). -/
def C1fwd : Fin 1 → ℚ :=
  (C1ctx.imped3D_evalDeriv_fwd .xy .real (fun _ => 1)).toOption.getD (fun _ => 0)

/-- Adjoint-mode flat result of `evalDeriv` on `C1ctx` (orientation `'xy'`,
data vector of ones). -/
def C1adj : Fin (2 * 1) → Cq :=
  (C1ctx.imped3D_evalDeriv_adjFlat .xy (fun _ => 1)).toOption.getD (fun _ => 0)

/-- What the adjoint-mode flat result would be with the corrected
`_aHd_uV` (the exact transpose of `_Hd_uV`). -/
def C1adjFixed : Fin (2 * 1) → Cq :=
  (-(C1ctx.aex_px_u (C1ctx.ahx_py * (C1ctx.aHd * fun _ => 1)))
      - C1ctx.ahx_py_u (C1ctx.aex_px * (C1ctx.aHd * fun _ => 1))
      + C1ctx.ahx_px_u (C1ctx.aex_py * (C1ctx.aHd * fun _ => 1))
      + C1ctx.aex_py_u (C1ctx.ahx_px * (C1ctx.aHd * fun _ => 1)))
    - C1ctx.aHd_uV_fixed
        ((C1ctx.aHd * (-C1ctx.ahx_py * C1ctx.aex_px + C1ctx.ahx_px * C1ctx.aex_py))
          * (C1ctx.aHd * fun _ => 1))

set_option maxHeartbeats 1600000 in
/-- C1: the adjoint identity `dot(u, evalDeriv(v, adjoint=False)) =
dot(v, evalDeriv(u, adjoint=True))` fails on the code even though the field
object's derivative operators are exact forward/adjoint pairs (they are
transposes by construction in the embedding): on `C1ctx` (3D impedance,
orientation `'xy'`, component `'real'`, real-valued fields, `u` and `v` all
ones) the forward pairing is `-74/9` while the adjoint pairing is `-61/6`.
The culprit is `_aHd_uV` (RxNSEM.py lines 338-344), which computes
`_ahx_px_u(sdiag(_ahy_py) * x)` twice and omits the transpose of the second
quotient-rule term; with the corrected second term
(`aHd_uV_fixed`) the adjoint pairing equals the forward pairing exactly. -/
theorem C1_adjoint_identity_code_bug :
    (C1ctx.imped3D_evalDeriv_fwd .xy .real (fun _ => 1) = .ok C1fwd) ∧
    (C1ctx.imped3D_evalDeriv_adjFlat .xy (fun _ => 1) = .ok C1adj) ∧
    (∑ i, Cq.ofQ (C1fwd i)) ≠ (∑ j, C1adj j) ∧
    (∑ i, Cq.ofQ (C1fwd i)) = (∑ j, C1adjFixed j) := by
  have hf : C1fwd 0 = -74/9 := by
    simp [C1fwd, C1ctx, NSEMCtx.imped3D_evalDeriv_fwd, NSEMCtx.imped3D_ZijN_uV,
      NSEMCtx.imped3D_evalC, NSEMCtx.imped3D_Zij, NSEMCtx.Hd, NSEMCtx.Hd_uV,
      NSEMCtx.ex_px, NSEMCtx.ex_py, NSEMCtx.hx_px, NSEMCtx.hx_py, NSEMCtx.hy_px,
      NSEMCtx.hy_py, NSEMCtx.ex_px_u, NSEMCtx.ex_py_u, NSEMCtx.hx_px_u,
      NSEMCtx.hx_py_u, NSEMCtx.hy_px_u, NSEMCtx.hy_py_u, compExtract, vdivQ,
      Matrix.mulVec, Matrix.dotProduct, Fin.sum_univ_succ, Matrix.of_apply,
      Except.map, Except.toOption, Option.getD, Except.bind, Bind.bind,
      Except.pure, Pure.pure, Cq.ofQ, Cq.inv, Matrix.mul_apply]
    try rw [show (Finset.filter (fun x : Fin 2 => x.val = 0) Finset.univ).card = 1 from rfl]
    norm_num
  have hadj : C1adj 0 = ⟨-25/6, 0⟩ ∧ C1adj 1 = ⟨-6, 0⟩ := by
    constructor <;> (
      refine Cq.ext ?_ ?_ <;> (
        simp [C1adj, C1ctx, NSEMCtx.imped3D_evalDeriv_adjFlat, NSEMCtx.imped3D_aZijN_uV,
          NSEMCtx.imped3D_aZij, NSEMCtx.aHd, NSEMCtx.aHd_uV,
          NSEMCtx.aex_px, NSEMCtx.aex_py, NSEMCtx.ahx_px, NSEMCtx.ahx_py,
          NSEMCtx.ahy_px, NSEMCtx.ahy_py, NSEMCtx.aex_px_u, NSEMCtx.aex_py_u,
          NSEMCtx.ahx_px_u, NSEMCtx.ahx_py_u, NSEMCtx.ahy_px_u, NSEMCtx.ahy_py_u,
          vdivQ, Matrix.mulVec, Matrix.vecMul, Matrix.dotProduct, Matrix.transpose_apply,
          Fin.sum_univ_succ, Matrix.of_apply, Except.map, Except.toOption, Option.getD,
          Except.bind, Bind.bind, Except.pure, Pure.pure, Cq.ofQ, Cq.inv, Matrix.mul_apply]
        try rw [show (Finset.filter (fun x : Fin 2 => x.val = 0) Finset.univ).card = 1 from rfl]
        try norm_num))
  have hfix : C1adjFixed 0 = ⟨-35/9, 0⟩ ∧ C1adjFixed 1 = ⟨-13/3, 0⟩ := by
    constructor <;> (
      refine Cq.ext ?_ ?_ <;> (
        simp [C1adjFixed, C1ctx, NSEMCtx.aHd_uV_fixed, NSEMCtx.aHd,
          NSEMCtx.aex_px, NSEMCtx.aex_py, NSEMCtx.ahx_px, NSEMCtx.ahx_py,
          NSEMCtx.ahy_px, NSEMCtx.ahy_py, NSEMCtx.aex_px_u, NSEMCtx.aex_py_u,
          NSEMCtx.ahx_px_u, NSEMCtx.ahx_py_u, NSEMCtx.ahy_px_u, NSEMCtx.ahy_py_u,
          vdivQ, Matrix.mulVec, Matrix.vecMul, Matrix.dotProduct, Matrix.transpose_apply,
          Fin.sum_univ_succ, Matrix.of_apply, Cq.ofQ, Cq.inv, Matrix.mul_apply]
        try rw [show (Finset.filter (fun x : Fin 2 => x.val = 0) Finset.univ).card = 1 from rfl]
        try norm_num))
  refine ⟨rfl, rfl, ?_, ?_⟩
  · rw [Fin.sum_univ_one, Fin.sum_univ_two, hf, hadj.1, hadj.2]
    intro h
    have h2 := congrArg Cq.re h
    simp [Cq.ofQ] at h2
    norm_num at h2
  · rw [Fin.sum_univ_one, Fin.sum_univ_two, hf, hfix.1, hfix.2]
    refine Cq.ext ?_ ?_ <;> (simp [Cq.ofQ]; try norm_num)
